import Mathlib

/-!
Verification development for the smart-search Python repository.

Shallow embedding of the search orchestration core
(`smart_search/core/smart_search.py`, `smart_search/core/types.py`) and of
the data-governance masking layer
(`delta-redis-data-governance/python/app/governance.py`,
`.../app/utils/masking.py`).

Conventions of the embedding:
* Python `int` values are `Int`/`Nat`; Python `float` configuration weights
  and timestamps are modelled as exact rationals `ℚ` (the concrete inputs
  used in the theorems below are ones on which IEEE-754 double arithmetic
  and exact rational arithmetic agree after `int()` truncation).
* Mutable state (circuit-breaker fields, the process-wide token map,
  Python dicts) is threaded explicitly.
* Fallible operations return `Except String`; raising an exception is the
  `.error` constructor.
* Wall-clock durations (`search_time`) carry no logical content and are
  omitted from the response model.
-/

/-- `SearchResult.__post_init__` (types.py): clamp to `[0, 100]` via
`max(0, min(100, self.relevance_score))`. -/
def clamp_score (s : Int) : Int := max 0 (min 100 s)

/-- Projection of dataclass `SearchResult` (types.py) onto the fields read
by the orchestration core: `id`, a representative carried payload field
(`title`), and `relevance_score`.  The remaining optional descriptor
fields are never read by the merge engine or the orchestrator and are
carried unchanged by `dataclasses.replace`, exactly like `title` here. -/
structure SearchResult where
  id : String
  title : String
  relevance_score : Int
deriving DecidableEq

/-- Constructing a `SearchResult` runs `__post_init__`, which clamps the
relevance score into `[0, 100]`. -/
def mk_search_result (i t : String) (s : Int) : SearchResult :=
  ⟨i, t, clamp_score s⟩

/-- `dataclasses.replace(result, relevance_score=s)` re-runs
`__post_init__`, hence re-clamps. -/
def replace_score (r : SearchResult) (s : Int) : SearchResult :=
  { r with relevance_score := clamp_score s }

/-- Enum `SearchStrategy` (types.py). -/
inductive SearchStrategy where
  | cache
  | database
  | hybrid
deriving DecidableEq

/-- Dataclass `SearchStrategyInfo` (types.py). -/
structure SearchStrategyInfo where
  primary : SearchStrategy
  fallback : SearchStrategy
  reason : String
deriving DecidableEq

/-- The fields of `HealthStatus` (types.py) consulted by
`_determine_search_strategy`. -/
structure CacheHealth where
  is_connected : Bool
  is_search_available : Bool
  latency : ℚ
deriving DecidableEq

/-- Python `int()` applied to a real quantity: truncation toward zero. -/
def py_int (q : ℚ) : Int := if q < 0 then ⌈q⌉ else ⌊q⌋

/-- Comparator for `sorted(key=lambda x: x.relevance_score, reverse=True)`:
descending relevance order. -/
def score_desc (a b : SearchResult) : Bool :=
  decide (b.relevance_score ≤ a.relevance_score)

/-- Insert a result into a descending-sorted list, after any element of
equal score (preserving the stability of Python `sorted`). -/
def py_insert_desc (x : SearchResult) : List SearchResult → List SearchResult
  | [] => [x]
  | y :: ys =>
      if y.relevance_score < x.relevance_score then x :: y :: ys
      else y :: py_insert_desc x ys

/-- Python `sorted(xs, key=lambda x: x.relevance_score, reverse=True)`
(stable, descending), as a left-to-right stable insertion sort. -/
def py_sorted_desc (l : List SearchResult) : List SearchResult :=
  l.foldl (fun acc x => py_insert_desc x acc) []

/-- Python-dict insert-or-update on an association list: update the first
binding of the key in place, else append (insertion order preserved,
matching `dict` semantics). -/
def upsert {β : Type} : List (String × β) → String → β → List (String × β)
  | [], k, v => [(k, v)]
  | (k', v') :: rest, k, v =>
      if k' = k then (k, v) :: rest else (k', v') :: upsert rest k v

/-- `SmartSearch._union_merge`: dedupe by id, cache results first, then
sort by relevance descending.  The two seen-set loops over
`cache_results` then `db_results` are one first-occurrence dedup pass
over their concatenation. -/
def dedup_by_id_aux : List String → List SearchResult → List SearchResult
  | _, [] => []
  | seen, r :: rest =>
      if r.id ∈ seen then dedup_by_id_aux seen rest
      else r :: dedup_by_id_aux (r.id :: seen) rest

def dedup_by_id (l : List SearchResult) : List SearchResult :=
  dedup_by_id_aux [] l

def union_merge (cache_results db_results : List SearchResult) :
    List SearchResult :=
  py_sorted_desc (dedup_by_id (cache_results ++ db_results))

/-- `SmartSearch._intersection_merge`: `db_results_map = {r.id: r for r in
db_results}` (later bindings overwrite), keep cache-order ids found in the
map with the higher-scoring instance, sort descending. -/
def db_results_map (db_results : List SearchResult) :
    List (String × SearchResult) :=
  db_results.foldl (fun m r => upsert m r.id r) []

def intersection_merge (cache_results db_results : List SearchResult) :
    List SearchResult :=
  py_sorted_desc
    (cache_results.foldl (fun acc c =>
      match List.lookup c.id (db_results_map db_results) with
      | some dbr =>
          acc ++ [if dbr.relevance_score ≤ c.relevance_score then c else dbr]
      | none => acc) [])

/-- One step of the `cache_results` loop of `SmartSearch._weighted_merge`:
`int(score * cache_weight)`, rebuilt through `dataclasses.replace`
(which re-clamps). -/
def weighted_cache_step (cw : ℚ) (m : List (String × SearchResult))
    (r : SearchResult) : List (String × SearchResult) :=
  upsert m r.id (replace_score r (py_int ((r.relevance_score : ℚ) * cw)))

/-- One step of the `db_results` loop of `SmartSearch._weighted_merge`:
combine with an existing entry, else insert the weighted db result. -/
def weighted_db_step (dw : ℚ) (m : List (String × SearchResult))
    (r : SearchResult) : List (String × SearchResult) :=
  match List.lookup r.id m with
  | some existing =>
      upsert m r.id
        (replace_score existing
          (existing.relevance_score + py_int ((r.relevance_score : ℚ) * dw)))
  | none =>
      upsert m r.id (replace_score r (py_int ((r.relevance_score : ℚ) * dw)))

/-- `SmartSearch._weighted_merge` (metadata annotations omitted: they do
not alter id or relevance_score). -/
def weighted_merge (cache_results db_results : List SearchResult)
    (cache_weight db_weight : ℚ) : List SearchResult :=
  let m1 := cache_results.foldl (weighted_cache_step cache_weight) []
  let m2 := db_results.foldl (weighted_db_step db_weight) m1
  py_sorted_desc (m2.map Prod.snd)

/-- `SmartSearch._merge_search_results` dispatch on
`hybrid_search_config["merging_algorithm"]` (default `"weighted"` handled
at the call site; unknown algorithms fall back to union). -/
def merge_search_results (algorithm : String)
    (cache_weight db_weight : ℚ)
    (cache_results db_results : List SearchResult) : List SearchResult :=
  if algorithm = ("union") then union_merge cache_results db_results
  else if algorithm = ("intersection") then
    intersection_merge cache_results db_results
  else if algorithm = ("weighted") then
    weighted_merge cache_results db_results cache_weight db_weight
  else union_merge cache_results db_results

/-- `SmartSearch._determine_search_strategy`. -/
def determine_search_strategy (has_cache : Bool)
    (cache_breaker_open : Bool) (cache_health : Option CacheHealth) :
    SearchStrategyInfo :=
  if has_cache = false then
    ⟨.database, .database, "No cache provider configured"⟩
  else if cache_breaker_open = true then
    ⟨.database, .database, "Cache circuit breaker is open"⟩
  else
    match cache_health with
    | some h =>
        if h.is_connected = true ∧ h.is_search_available = true ∧
            h.latency < 1000 then
          ⟨.cache, .database, "Cache healthy"⟩
        else if h.is_connected = true ∧ h.is_search_available = false then
          ⟨.database, .cache, "Cache connected but search unavailable"⟩
        else ⟨.database, .database, "Cache unavailable or unhealthy"⟩
    | none => ⟨.database, .database, "Cache unavailable or unhealthy"⟩

/-- The fields of `SearchPerformance` (types.py) with logical content
(`search_time` is wall clock and is omitted). -/
structure SearchPerformanceM where
  result_count : Nat
  strategy : SearchStrategy
  cache_hit : Bool
  errors : List String
deriving DecidableEq

/-- `SearchResponse` (types.py), restricted to results and performance. -/
structure SearchResponseM where
  results : List SearchResult
  performance : SearchPerformanceM
deriving DecidableEq

/-- Fallback leg of `SmartSearch.search`: on primary failure `e1`, try the
fallback strategy; if it fails too, return an empty result set carrying
both error strings. -/
def search_fallback (has_cache : Bool) (strat : SearchStrategyInfo)
    (e1 : String)
    (cache_op2 db_op2 : Except String (List SearchResult)) :
    SearchResponseM :=
  let att2 :=
    if strat.fallback = .cache ∧ has_cache = true then cache_op2 else db_op2
  match att2 with
  | .ok rs =>
      ⟨rs, ⟨rs.length, strat.fallback, decide (strat.fallback = .cache), [e1]⟩⟩
  | .error e2 => ⟨[], ⟨0, .database, false, [e1, e2]⟩⟩

/-- `SmartSearch.search`, as a function of the strategy decision and of
the outcome of each backend call it may issue (`cache_op`/`db_op` for the
primary attempt, `cache_op2`/`db_op2` for the fallback attempt,
`hybrid_out` for the delegated `hybrid_search` call on the hybrid
branch).  Metrics, logging and the write-through cache step do not affect
the returned response and are omitted. -/
def search_model (has_cache : Bool) (strat : SearchStrategyInfo)
    (cache_op db_op cache_op2 db_op2 : Except String (List SearchResult))
    (hybrid_out : Except String SearchResponseM) : SearchResponseM :=
  if strat.primary = .cache ∧ has_cache = true then
    match cache_op with
    | .ok rs =>
        ⟨rs, ⟨rs.length, strat.primary, decide (strat.primary = .cache), []⟩⟩
    | .error e1 => search_fallback has_cache strat e1 cache_op2 db_op2
  else if strat.primary = .hybrid then
    match hybrid_out with
    | .ok resp => resp
    | .error e1 => search_fallback has_cache strat e1 cache_op2 db_op2
  else
    match db_op with
    | .ok rs =>
        ⟨rs, ⟨rs.length, strat.primary, decide (strat.primary = .cache), []⟩⟩
    | .error e1 => search_fallback has_cache strat e1 cache_op2 db_op2

/-- Core of `SmartSearch.hybrid_search` once enabled with a cache present:
gather both outcomes, merge when both succeed, fall back to the surviving
list otherwise, raise when both fail. -/
def hybrid_search_core (algorithm : String) (cache_weight db_weight : ℚ)
    (cache_out db_out : Except String (List SearchResult)) :
    Except String (List SearchResult) :=
  match cache_out, db_out with
  | .ok c, .ok d =>
      .ok (merge_search_results algorithm cache_weight db_weight c d)
  | .ok c, .error _ => .ok c
  | .error _, .ok d => .ok d
  | .error _, .error _ => .error "HYBRID_SEARCH_COMPLETE_FAILURE"

/-- Modelled from the spec: `DataGovernanceService.mask_sensitive_fields`
(imported by `secure_search` from `smart_search.security.data_governance`,
which is not under src/).  Per spec §4.5 step 3 and §4.8, masking rewrites
masked descriptor fields of each result for the caller's role and does not
touch `id` or `relevance_score`; `mask_title` stands for the per-field
rewriting. -/
def mask_sensitive_fields (mask_title : String → String)
    (rs : List SearchResult) : List SearchResult :=
  rs.map (fun r => { r with title := mask_title r.title })

/-! ## Circuit breaker (`CircuitBreaker` in smart_search.py) -/

/-- The `self.state` string: `"CLOSED"`, `"OPEN"`, `"HALF_OPEN"`. -/
inductive CBState where
  | closed
  | opened
  | halfOpen
deriving DecidableEq

/-- `CircuitBreaker.__init__` fields.  Timestamps (`time.time()`) and the
recovery timeout are modelled over `ℤ`: the breaker only subtracts and
compares them, so any linearly ordered time axis is equivalent. -/
structure CircuitBreaker where
  failure_threshold : Nat
  recovery_timeout : ℤ
  success_threshold : Nat
  failure_count : Nat
  success_count : Nat
  last_failure_time : ℤ
  state : CBState
deriving DecidableEq

/-- `CircuitBreaker(failure_threshold, recovery_timeout,
success_threshold)`: counters zeroed, state CLOSED. -/
def mk_circuit_breaker (ft : Nat) (rt : ℤ) (st : Nat) : CircuitBreaker :=
  ⟨ft, rt, st, 0, 0, 0, .closed⟩

/-- `CircuitBreaker.is_open(self)`, which also performs the
OPEN → HALF_OPEN transition when `time.time() - last_failure_time >=
recovery_timeout`; returns the boolean and the updated breaker. -/
def CircuitBreaker.is_open (cb : CircuitBreaker) (now : ℤ) :
    Bool × CircuitBreaker :=
  match cb.state with
  | .opened =>
      if cb.recovery_timeout ≤ now - cb.last_failure_time then
        (false, { cb with state := .halfOpen })
      else (true, cb)
  | _ => (false, cb)

/-- `CircuitBreaker.record_success`. -/
def CircuitBreaker.record_success (cb : CircuitBreaker) : CircuitBreaker :=
  match cb.state with
  | .halfOpen =>
      if cb.success_threshold ≤ cb.success_count + 1 then
        { cb with state := .closed, failure_count := 0, success_count := 0 }
      else { cb with success_count := cb.success_count + 1 }
  | .closed => { cb with failure_count := cb.failure_count - 1 }
  | .opened => cb

/-- `CircuitBreaker.record_failure` at time `now`: increment the count,
stamp the time, and open when the count reaches the threshold. -/
def CircuitBreaker.record_failure (cb : CircuitBreaker) (now : ℤ) :
    CircuitBreaker :=
  if cb.failure_threshold ≤ cb.failure_count + 1 then
    { cb with failure_count := cb.failure_count + 1,
              last_failure_time := now, state := .opened }
  else
    { cb with failure_count := cb.failure_count + 1,
              last_failure_time := now }

/-- Result of `CircuitBreaker.call`: short-circuited with the
CIRCUIT_BREAKER_OPEN error, re-raised the operation's exception, or
returned its value. -/
inductive CBCallResult (α : Type) where
  | opened
  | raised (e : String)
  | returned (a : α)
deriving DecidableEq

structure CBCallOutcome (α : Type) where
  result : CBCallResult α
  breaker : CircuitBreaker
  invoked : Bool
deriving DecidableEq

/-- `CircuitBreaker.call(self, func, ...)` at time `now`, where `op` is
the outcome the wrapped operation would produce if invoked; `invoked`
records whether it was. -/
def CircuitBreaker.call {α : Type} (cb : CircuitBreaker) (now : ℤ)
    (op : Except String α) : CBCallOutcome α :=
  if (cb.is_open now).1 = true then ⟨.opened, (cb.is_open now).2, false⟩
  else
    match op with
    | .ok a => ⟨.returned a, (cb.is_open now).2.record_success, true⟩
    | .error e => ⟨.raised e, (cb.is_open now).2.record_failure now, true⟩

/-- Events a breaker can undergo: a recorded success, a recorded failure
at a time, or an `is_open()` observation at a time. -/
inductive CBEvent where
  | success
  | failure (t : ℤ)
  | observe (t : ℤ)
deriving DecidableEq

def cb_step (cb : CircuitBreaker) : CBEvent → CircuitBreaker
  | .success => cb.record_success
  | .failure t => cb.record_failure t
  | .observe t => (cb.is_open t).2

/-- A breaker reachable from construction through a sequence of events. -/
def cb_run (ft : Nat) (rt : ℤ) (st : Nat) (evs : List CBEvent) :
    CircuitBreaker :=
  evs.foldl cb_step (mk_circuit_breaker ft rt st)

/-- `n` consecutive recorded failures at the given times. -/
def record_failures (cb : CircuitBreaker) (ts : List ℤ) : CircuitBreaker :=
  ts.foldl CircuitBreaker.record_failure cb

/-- `SmartSearchConfig.__post_init__` (types.py) defaults the
`circuit_breaker` dict to `{"failure_threshold": 5, "recovery_timeout":
60000, "health_cache_ttl": 30000}` (the values are commented as
milliseconds). -/
def config_default_failure_threshold : Nat := 5

def config_default_recovery_timeout : ℤ := 60000

/-- `SmartSearch.__init__` builds each breaker with
`self.circuit_breaker_config.get("recovery_timeout", 60.0)`; under the
default configuration the dict entry `60000` is present and wins. -/
def cb_config_get (entry : Option ℤ) (default : ℤ) : ℤ :=
  entry.getD default

/-- The breaker the orchestrator creates under the default configuration:
`CircuitBreaker(failure_threshold=5, recovery_timeout=60000)`
(`success_threshold` keeps its constructor default 3).  `is_open`
interprets `recovery_timeout` in seconds. -/
def default_orchestrator_breaker : CircuitBreaker :=
  mk_circuit_breaker config_default_failure_threshold
    (cb_config_get (some config_default_recovery_timeout) 60) 3

/-! ## Data-governance masking layer
(`app/utils/masking.py`, `app/governance.py`).  Python values occurring in
rows are modelled by `PyVal`; Python strings by `List Char`. -/

def M32 : Nat := 4294967296

def mask32 : Nat := 4294967295

def add32 (a b : Nat) : Nat := (a + b) % M32

def rotr32 (n x : Nat) : Nat :=
  ((x >>> n) ||| (x <<< (32 - n))) % M32

def rotl32 (n x : Nat) : Nat :=
  ((x <<< n) ||| (x >>> (32 - n))) % M32

def not32 (x : Nat) : Nat := x ^^^ mask32

/-- UTF-8 encoding of one character (Python str.encode()). -/
def utf8_char (c : Char) : List Nat :=
  let u := c.toNat
  if u < 128 then [u]
  else if u < 2048 then [192 ||| (u >>> 6), 128 ||| (u &&& 63)]
  else if u < 65536 then
    [224 ||| (u >>> 12), 128 ||| ((u >>> 6) &&& 63), 128 ||| (u &&& 63)]
  else
    [240 ||| (u >>> 18), 128 ||| ((u >>> 12) &&& 63),
     128 ||| ((u >>> 6) &&& 63), 128 ||| (u &&& 63)]

def utf8_encode (s : List Char) : List Nat :=
  s.flatMap utf8_char

/-- Merkle–Damgård padding shared by SHA-1 and SHA-256: append 0x80, pad
with zeros to 56 mod 64, then the 64-bit big-endian bit length. -/
def sha_pad (msg : List Nat) : List Nat :=
  let L := msg.length
  msg ++ [128] ++ List.replicate ((119 - (L % 64)) % 64) 0 ++
    [56, 48, 40, 32, 24, 16, 8, 0].map (fun s => ((8 * L) >>> s) % 256)

def to_blocks_aux : Nat → List Nat → List (List Nat)
  | 0, _ => []
  | _, [] => []
  | fuel + 1, l => l.take 64 :: to_blocks_aux fuel (l.drop 64)

def to_blocks (l : List Nat) : List (List Nat) :=
  to_blocks_aux l.length l

/-- Big-endian 32-bit words of a 64-byte block. -/
def block_words (b : List Nat) : List Nat :=
  (List.range 16).map (fun i =>
    (b.getD (4 * i) 0) * 16777216 + (b.getD (4 * i + 1) 0) * 65536 +
    (b.getD (4 * i + 2) 0) * 256 + b.getD (4 * i + 3) 0)

def sha256_k : List Nat :=
  [1116352408, 1899447441, 3049323471, 3921009573,
   961987163, 1508970993, 2453635748, 2870763221,
   3624381080, 310598401, 607225278, 1426881987,
   1925078388, 2162078206, 2614888103, 3248222580,
   3835390401, 4022224774, 264347078, 604807628,
   770255983, 1249150122, 1555081692, 1996064986,
   2554220882, 2821834349, 2952996808, 3210313671,
   3336571891, 3584528711, 113926993, 338241895,
   666307205, 773529912, 1294757372, 1396182291,
   1695183700, 1986661051, 2177026350, 2456956037,
   2730485921, 2820302411, 3259730800, 3345764771,
   3516065817, 3600352804, 4094571909, 275423344,
   430227734, 506948616, 659060556, 883997877,
   958139571, 1322822218, 1537002063, 1747873779,
   1955562222, 2024104815, 2227730452, 2361852424,
   2428436474, 2756734187, 3204031479, 3329325298]

def sha256_h0 : List Nat :=
  [1779033703, 3144134277, 1013904242, 2773480762,
   1359893119, 2600822924, 528734635, 1541459225]

def sha256_sched_step (w : List Nat) (t : Nat) : List Nat :=
  let x15 := w.getD (t - 15) 0
  let x2 := w.getD (t - 2) 0
  let s0 := (rotr32 7 x15) ^^^ (rotr32 18 x15) ^^^ (x15 >>> 3)
  let s1 := (rotr32 17 x2) ^^^ (rotr32 19 x2) ^^^ (x2 >>> 10)
  w ++ [add32 (add32 (w.getD (t - 16) 0) s0) (add32 (w.getD (t - 7) 0) s1)]

def sha256_round (w : List Nat) (st : List Nat) (i : Nat) : List Nat :=
  let a := st.getD 0 0
  let b := st.getD 1 0
  let c := st.getD 2 0
  let d := st.getD 3 0
  let e := st.getD 4 0
  let f := st.getD 5 0
  let g := st.getD 6 0
  let h := st.getD 7 0
  let s1 := (rotr32 6 e) ^^^ (rotr32 11 e) ^^^ (rotr32 25 e)
  let ch := (e &&& f) ^^^ ((not32 e) &&& g)
  let t1 := add32 (add32 h s1) (add32 ch (add32 (sha256_k.getD i 0) (w.getD i 0)))
  let s0 := (rotr32 2 a) ^^^ (rotr32 13 a) ^^^ (rotr32 22 a)
  let mj := (a &&& b) ^^^ (a &&& c) ^^^ (b &&& c)
  let t2 := add32 s0 mj
  [add32 t1 t2, a, b, c, add32 d t1, e, f, g]

def sha256_compress (h : List Nat) (block : List Nat) : List Nat :=
  let w := (List.range 48).foldl (fun w j => sha256_sched_step w (j + 16))
    (block_words block)
  let st := (List.range 64).foldl (sha256_round w) h
  (List.range 8).map (fun i => add32 (h.getD i 0) (st.getD i 0))

def sha256_words (msg : List Nat) : List Nat :=
  (to_blocks (sha_pad msg)).foldl sha256_compress sha256_h0

def hex_digit (n : Nat) : Char :=
  if n < 10 then Char.ofNat (48 + n) else Char.ofNat (87 + n)

def hex_of_word (w : Nat) : List Char :=
  (List.range 8).map (fun i => hex_digit ((w >>> (28 - 4 * i)) &&& 15))

def sha256_hex (msg : List Nat) : List Char :=
  (sha256_words msg).flatMap hex_of_word

def sha1_h0 : List Nat :=
  [1732584193, 4023233417, 2562383102, 271733878, 3285377520]

def sha1_sched_step (w : List Nat) (t : Nat) : List Nat :=
  w ++ [rotl32 1 ((w.getD (t - 3) 0) ^^^ (w.getD (t - 8) 0) ^^^
        (w.getD (t - 14) 0) ^^^ (w.getD (t - 16) 0))]

def sha1_round (w : List Nat) (st : List Nat) (i : Nat) : List Nat :=
  let a := st.getD 0 0
  let b := st.getD 1 0
  let c := st.getD 2 0
  let d := st.getD 3 0
  let e := st.getD 4 0
  let f :=
    if i < 20 then (b &&& c) ||| ((not32 b) &&& d)
    else if i < 40 then b ^^^ c ^^^ d
    else if i < 60 then (b &&& c) ||| (b &&& d) ||| (c &&& d)
    else b ^^^ c ^^^ d
  let k :=
    if i < 20 then 1518500249
    else if i < 40 then 1859775393
    else if i < 60 then 2400959708
    else 3395469782
  let tmp := add32 (add32 (rotl32 5 a) f) (add32 e (add32 k (w.getD i 0)))
  [tmp, a, rotl32 30 b, c, d]

def sha1_compress (h : List Nat) (block : List Nat) : List Nat :=
  let w := (List.range 64).foldl (fun w j => sha1_sched_step w (j + 16))
    (block_words block)
  let st := (List.range 80).foldl (sha1_round w) h
  (List.range 5).map (fun i => add32 (h.getD i 0) (st.getD i 0))

def sha1_hex (msg : List Nat) : List Char :=
  ((to_blocks (sha_pad msg)).foldl sha1_compress sha1_h0).flatMap hex_of_word

/-- Python values occurring in governed rows: `None`, strings, ints. -/
inductive PyVal where
  | none
  | str (s : List Char)
  | int (i : Int)
deriving DecidableEq

/-- Python truthiness of the row values we model: `None`, `""` and `0`
are falsy. -/
def py_truthy : PyVal → Bool
  | .none => false
  | .str s => decide (s ≠ [])
  | .int i => decide (i ≠ 0)

/-- Python `str(value)` on the modelled values. -/
def py_str : PyVal → List Char
  | .none => ("None").toList
  | .str s => s
  | .int i => (toString i).toList

/-- Python `s.split()`: split on whitespace runs, dropping empty pieces;
`cur` accumulates the current piece reversed. -/
def py_split_ws_aux (cur : List Char) : List Char → List (List Char)
  | [] => if cur = [] then [] else [cur.reverse]
  | c :: cs =>
      if c.isWhitespace then
        if cur = [] then py_split_ws_aux [] cs
        else cur.reverse :: py_split_ws_aux [] cs
      else py_split_ws_aux (c :: cur) cs

def py_split_ws (s : List Char) : List (List Char) :=
  py_split_ws_aux [] s

/-- Python `s.split(sep)` for a one-character separator (keeps empty
pieces; never returns an empty list). -/
def py_split_on_aux (sep : Char) (cur : List Char) :
    List Char → List (List Char)
  | [] => [cur.reverse]
  | c :: cs =>
      if c = sep then cur.reverse :: py_split_on_aux sep [] cs
      else py_split_on_aux sep (c :: cur) cs

def py_split_on (sep : Char) (s : List Char) : List (List Char) :=
  py_split_on_aux sep [] s

/-- Python `s.strip()`. -/
def py_strip (s : List Char) : List Char :=
  ((s.dropWhile Char.isWhitespace).reverse.dropWhile Char.isWhitespace).reverse

/-- `masking.redact_full`. -/
def redact_full (_ : PyVal) : PyVal := .none

/-- `masking.redact_part(value, keep)`: `'*' * max(0, len(s) - keep) +
s[-keep:]` on the stringified value, falsy values unchanged. -/
def redact_part (keep : Nat) (v : PyVal) : PyVal :=
  if py_truthy v = false then v
  else
    let s := py_str v
    .str (List.replicate (s.length - keep) '*' ++ s.drop (s.length - keep))

/-- `masking.hash_value`: `None` stays `None`, otherwise the first 16 hex
chars of SHA-256 of the UTF-8 encoded stringified value. -/
def hash_value (v : PyVal) : PyVal :=
  match v with
  | .none => .none
  | _ => .str ((sha256_hex (utf8_encode (py_str v))).take 16)

/-- The process-wide `_TOKENS` dict of `masking.py`, threaded
explicitly. -/
abbrev TokenMap : Type := List (PyVal × List Char)

/-- `masking.tokenize`: memoized `'tok_' + sha1(str(value))[:10]`. -/
def tokenize (tm : TokenMap) (v : PyVal) : PyVal × TokenMap :=
  match List.lookup v tm with
  | some t => (.str t, tm)
  | Option.none =>
      let t := ("tok_").toList ++ (sha1_hex (utf8_encode (py_str v))).take 10
      (.str t, tm ++ [(v, t)])

/-- `masking.initials`: uppercase first letter of each whitespace-separated
part; falsy values unchanged. -/
def initials (v : PyVal) : PyVal :=
  if py_truthy v = false then v
  else .str ((py_split_ws (py_str v)).map (fun p => (p.headD ' ').toUpper))

/-- `masking.year_only`: first 4 chars of the stringified value. -/
def year_only (v : PyVal) : PyVal :=
  if py_truthy v = false then v else .str ((py_str v).take 4)

/-- `masking.yyyy_mm`: first 7 chars of the stringified value. -/
def yyyy_mm (v : PyVal) : PyVal :=
  if py_truthy v = false then v else .str ((py_str v).take 7)

/-- `masking.city_only`: `str(value).split(',')[-1].strip()` when a comma
is present, else the value unchanged. -/
def city_only (v : PyVal) : PyVal :=
  if py_truthy v = false then v
  else
    let s := py_str v
    if ',' ∈ s then .str (py_strip ((py_split_on ',' s).getLastD []))
    else v

/-- A row (`Dict[str, Any]`) with Python-dict insertion order. -/
abbrev Row : Type := List (String × PyVal)

/-- `out[field] = x` on a dict: update in place or append. -/
def row_set (r : Row) (f : String) (v : PyVal) : Row := upsert r f v

/-- `out.get(field)` (defaults to `None`). -/
def row_get (r : Row) (f : String) : PyVal :=
  (List.lookup f r).getD PyVal.none

/-- One iteration of the `for field, mask in masks.items()` loop of
`governance.apply_masks`, threading the token map. -/
def apply_mask_step (acc : Row × TokenMap) (fm : String × String) :
    Row × TokenMap :=
  let out := acc.1
  let tm := acc.2
  let f := fm.1
  let m := fm.2
  let val := row_get out f
  if m = ("redact_full") then (row_set out f (redact_full val), tm)
  else if m = ("redact_part") then (row_set out f (redact_part 4 val), tm)
  else if m = ("hash") then (row_set out f (hash_value val), tm)
  else if m = ("tokenize") then
    let r := tokenize tm val
    (row_set out f r.1, r.2)
  else if m = ("initials") then (row_set out f (initials val), tm)
  else if m = ("year_only") then (row_set out f (year_only val), tm)
  else if m = ("yyyy_mm") then (row_set out f (yyyy_mm val), tm)
  else if m = ("city_only") then (row_set out f (city_only val), tm)
  else if m = ("null") ∨ m = ("none") then (row_set out f PyVal.none, tm)
  else (out, tm)

/-- `governance.apply_masks(row, masks)`: start from a copy of the row and
rewrite each masked field.  The mask plan is the `.items()` sequence of
the `column_masks` dict (keys distinct). -/
def apply_masks (row : Row) (masks : List (String × String))
    (tm : TokenMap) : Row × TokenMap :=
  masks.foldl apply_mask_step (row, tm)

/-- The mask kinds recognized by `apply_masks`. -/
def supported_mask_kinds : List String :=
  ["redact_full", "redact_part", "hash", "tokenize", "initials",
   "year_only", "yyyy_mm", "city_only", "null", "none"]

/-- The mask kinds claimed (and proved below) idempotent. -/
def idempotent_mask_kinds : List String :=
  ["redact_full", "redact_part", "year_only", "yyyy_mm", "city_only",
   "null", "none"]

/-- Score predicate of the relevance-bound invariant: `relevance_score ∈
[0, 100]`. -/
def score_ok (r : SearchResult) : Prop :=
  0 ≤ r.relevance_score ∧ r.relevance_score ≤ 100

def results_ok (rs : List SearchResult) : Prop := ∀ r ∈ rs, score_ok r

instance (r : SearchResult) : Decidable (score_ok r) := by
  unfold score_ok
  infer_instance

instance (rs : List SearchResult) : Decidable (results_ok rs) := by
  unfold results_ok
  exact List.decidableBAll _ rs

/-- A backend-call outcome whose successful result list satisfies the
relevance bound (as every list of constructed `SearchResult`s does). -/
def op_ok (o : Except String (List SearchResult)) : Prop :=
  ∀ rs, o = Except.ok rs → results_ok rs

def hybrid_ok (o : Except String SearchResponseM) : Prop :=
  ∀ resp, o = Except.ok resp → results_ok resp.results

/-- Restatement of the weighted merge following the (amended) spec words:
a cache-only id gets the truncated weighted cache score, a database-only
id the truncated weighted database score, an id present in both the sum
of the clamped cache part and the database part, every reconstruction
clamped to `[0, 100]`, and the output ordered by combined score
descending.  Compared against the source translation `weighted_merge`
below. -/
def weighted_merge_spec (cw dw : ℚ) (c d : List SearchResult) :
    List SearchResult :=
  py_sorted_desc
    (c.map (fun r =>
      match d.find? (fun x => x.id == r.id) with
      | some rd =>
          replace_score r
            (clamp_score (py_int ((r.relevance_score : ℚ) * cw)) +
              py_int ((rd.relevance_score : ℚ) * dw))
      | none => replace_score r (py_int ((r.relevance_score : ℚ) * cw)))
    ++ (d.filter (fun x => !((c.map SearchResult.id).contains x.id))).map
        (fun r => replace_score r (py_int ((r.relevance_score : ℚ) * dw))))

/-- The value written by `apply_mask_step` for the mask kinds proved
idempotent (projection of the corresponding branches of
`apply_mask_step`). -/
def idem_mask_value (m : String) (v : PyVal) : PyVal :=
  if m = ("redact_full") then redact_full v
  else if m = ("redact_part") then redact_part 4 v
  else if m = ("year_only") then year_only v
  else if m = ("yyyy_mm") then yyyy_mm v
  else if m = ("city_only") then city_only v
  else PyVal.none

/-! # Theorems -/

/-! ## Generic association-list and sorting lemmas -/

theorem score_desc_trans (a b c : SearchResult) (h1 : score_desc a b = true)
    (h2 : score_desc b c = true) : score_desc a c = true := by
  simp only [score_desc, decide_eq_true_eq] at *
  omega

theorem score_desc_total (a b : SearchResult) :
    (score_desc a b || score_desc b a) = true := by
  simp only [score_desc, Bool.or_eq_true, decide_eq_true_eq]
  omega

theorem py_insert_desc_perm (x : SearchResult) (l : List SearchResult) :
    (py_insert_desc x l).Perm (x :: l) := by
  induction l with
  | nil => exact List.Perm.refl _
  | cons y ys ih =>
      unfold py_insert_desc
      split
      · exact List.Perm.refl _
      · exact (ih.cons y).trans (List.Perm.swap x y ys)

theorem py_insert_desc_sorted (x : SearchResult) (l : List SearchResult)
    (hl : l.Pairwise (fun a b => b.relevance_score ≤ a.relevance_score)) :
    (py_insert_desc x l).Pairwise
      (fun a b => b.relevance_score ≤ a.relevance_score) := by
  induction l with
  | nil => simp [py_insert_desc]
  | cons y ys ih =>
      rcases List.pairwise_cons.mp hl with ⟨hy, hys⟩
      unfold py_insert_desc
      split
      · rename_i hlt
        refine List.pairwise_cons.mpr ⟨?_, hl⟩
        intro z hz
        rcases List.mem_cons.mp hz with hz | hz
        · subst hz; omega
        · have := hy z hz
          omega
      · rename_i hge
        refine List.pairwise_cons.mpr ⟨?_, ih hys⟩
        intro z hz
        rcases List.mem_cons.mp ((py_insert_desc_perm x ys).mem_iff.mp hz)
          with hz | hz
        · subst hz; omega
        · exact hy z hz

theorem py_sorted_desc_aux_perm (l acc : List SearchResult) :
    (l.foldl (fun acc x => py_insert_desc x acc) acc).Perm (acc ++ l) := by
  induction l generalizing acc with
  | nil => simp
  | cons x xs ih =>
      refine (ih (py_insert_desc x acc)).trans ?_
      have h1 : (py_insert_desc x acc ++ xs).Perm ((x :: acc) ++ xs) :=
        (py_insert_desc_perm x acc).append_right xs
      refine h1.trans ?_
      simpa using (@List.perm_middle _ x acc xs).symm

theorem py_sorted_desc_perm (l : List SearchResult) :
    (py_sorted_desc l).Perm l :=
  py_sorted_desc_aux_perm l []

theorem py_sorted_desc_aux_sorted (l acc : List SearchResult)
    (hacc : acc.Pairwise (fun a b => b.relevance_score ≤ a.relevance_score)) :
    (l.foldl (fun acc x => py_insert_desc x acc) acc).Pairwise
      (fun a b => b.relevance_score ≤ a.relevance_score) := by
  induction l generalizing acc with
  | nil => exact hacc
  | cons x xs ih => exact ih _ (py_insert_desc_sorted x acc hacc)

theorem py_sorted_desc_sorted (l : List SearchResult) :
    (py_sorted_desc l).Pairwise
      (fun a b => b.relevance_score ≤ a.relevance_score) :=
  py_sorted_desc_aux_sorted l [] (List.Pairwise.nil)

theorem mem_upsert {β : Type} (m : List (String × β)) (k : String) (v : β)
    (x : String × β) (hx : x ∈ upsert m k v) : x ∈ m ∨ x = (k, v) := by
  induction m with
  | nil => simpa [upsert] using hx
  | cons hd tl ih =>
      by_cases hk : hd.1 = k
      · rcases hd with ⟨k', v'⟩
        simp only [upsert] at hx
        rw [if_pos hk] at hx
        rcases List.mem_cons.mp hx with h | h
        · right; exact h
        · left; exact List.mem_cons_of_mem _ h
      · rcases hd with ⟨k', v'⟩
        simp only [upsert] at hx
        rw [if_neg hk] at hx
        rcases List.mem_cons.mp hx with h | h
        · left; exact h ▸ List.mem_cons_self _ _
        · rcases ih h with h' | h'
          · left; exact List.mem_cons_of_mem _ h'
          · right; exact h'

theorem upsert_of_not_mem {β : Type} (m : List (String × β)) (k : String)
    (v : β) (hk : k ∉ m.map Prod.fst) : upsert m k v = m ++ [(k, v)] := by
  induction m with
  | nil => rfl
  | cons hd tl ih =>
      rcases hd with ⟨k', v'⟩
      simp only [List.map_cons, List.mem_cons, not_or] at hk
      simp only [upsert]
      rw [if_neg (fun h => hk.1 h.symm), ih hk.2]
      rfl

theorem keys_upsert_mem {β : Type} (m : List (String × β)) (k : String)
    (v : β) (hk : k ∈ m.map Prod.fst) :
    (upsert m k v).map Prod.fst = m.map Prod.fst := by
  induction m with
  | nil => simp at hk
  | cons hd tl ih =>
      rcases hd with ⟨k', v'⟩
      by_cases h : k' = k
      · simp [upsert, if_pos h, h]
      · simp only [List.map_cons, List.mem_cons] at hk
        rcases hk with hk | hk
        · exact absurd hk.symm h
        · simp [upsert, if_neg h, ih hk]

theorem upsert_eq_map_of_nodup {β : Type} (m : List (String × β))
    (k : String) (v : β) (hnd : (m.map Prod.fst).Nodup)
    (hk : k ∈ m.map Prod.fst) :
    upsert m k v = m.map (fun kv => if kv.1 = k then (k, v) else kv) := by
  induction m with
  | nil => simp at hk
  | cons hd tl ih =>
      rcases hd with ⟨k', v'⟩
      simp only [List.map_cons, List.nodup_cons] at hnd
      by_cases h : k' = k
      · subst h
        show (if k' = k' then (k', v) :: tl else (k', v') :: upsert tl k' v) = _
        rw [if_pos rfl, List.map_cons, if_pos rfl]
        have h2 : ∀ kv ∈ tl, (if (kv : String × β).1 = k' then (k', v) else kv) = kv := by
          intro kv hkv
          rw [if_neg]
          intro hEq
          exact hnd.1 (hEq ▸ List.mem_map_of_mem Prod.fst hkv)
        rw [List.map_congr_left h2]
        simp
      · simp only [List.map_cons, List.mem_cons] at hk
        rcases hk with hk | hk
        · exact absurd hk.symm h
        · simp only [upsert, if_neg h, List.map_cons, if_neg h]
          rw [ih hnd.2 hk]

theorem lookup_mem {β : Type} (m : List (String × β)) (k : String) (v : β)
    (h : List.lookup k m = some v) : (k, v) ∈ m := by
  induction m with
  | nil => simp [List.lookup] at h
  | cons hd tl ih =>
      rcases hd with ⟨k', v'⟩
      by_cases hk : k = k'
      · subst hk
        simp [List.lookup] at h
        simp [h]
      · simp only [List.lookup, beq_eq_false_iff_ne, ne_eq,
          (beq_eq_false_iff_ne (a := k) (b := k')).mpr hk] at h
        exact List.mem_cons_of_mem _ (ih h)

theorem lookup_of_not_mem_keys {β : Type} (m : List (String × β))
    (k : String) (hk : k ∉ m.map Prod.fst) : List.lookup k m = none := by
  induction m with
  | nil => rfl
  | cons hd tl ih =>
      rcases hd with ⟨k', v'⟩
      simp only [List.map_cons, List.mem_cons, not_or] at hk
      simp only [List.lookup, (beq_eq_false_iff_ne (a := k) (b := k')).mpr hk.1]
      exact ih hk.2

theorem lookup_of_nodup_mem {β : Type} (m : List (String × β)) (k : String)
    (v : β) (hnd : (m.map Prod.fst).Nodup) (h : (k, v) ∈ m) :
    List.lookup k m = some v := by
  induction m with
  | nil => simp at h
  | cons hd tl ih =>
      rcases hd with ⟨k', v'⟩
      simp only [List.map_cons, List.nodup_cons] at hnd
      by_cases hk : k = k'
      · subst hk
        have hv : v = v' := by
          rcases List.mem_cons.mp h with h1 | h1
          · exact (Prod.mk.injEq
              (α := String) k v k v' ▸ h1).2
          · exact absurd (List.mem_map_of_mem Prod.fst h1) hnd.1
        subst hv
        simp [List.lookup]
      · have h1 : (k, v) ∈ tl := by
          rcases List.mem_cons.mp h with h1 | h1
          · exact absurd ((Prod.mk.injEq k v k' v' ▸ h1).1) hk
          · exact h1
        simp only [List.lookup, (beq_eq_false_iff_ne (a := k) (b := k')).mpr hk]
        exact ih hnd.2 h1

theorem clamp_score_nonneg (s : Int) : 0 ≤ clamp_score s := le_max_left 0 _

theorem clamp_score_le (s : Int) : clamp_score s ≤ 100 :=
  max_le (by norm_num) (min_le_left 100 s)

theorem replace_score_ok (r : SearchResult) (s : Int) :
    score_ok (replace_score r s) :=
  ⟨clamp_score_nonneg s, clamp_score_le s⟩

theorem mk_search_result_ok (i t : String) (s : Int) :
    score_ok (mk_search_result i t s) :=
  ⟨clamp_score_nonneg s, clamp_score_le s⟩

theorem replace_score_id (r : SearchResult) (s : Int) :
    (replace_score r s).id = r.id := rfl

theorem replace_replace (r : SearchResult) (s s' : Int) :
    replace_score (replace_score r s) s' = replace_score r s' := rfl

/-- The strategy selector never proposes the hybrid strategy (the hybrid
path is entered only through `hybrid_search`). -/
theorem determine_primary_ne_hybrid (hc cbo : Bool)
    (h : Option CacheHealth) :
    (determine_search_strategy hc cbo h).primary ≠ .hybrid := by
  unfold determine_search_strategy
  repeat' split
  all_goals simp

/-- C9: with no cache provider configured, the strategy decision is
(database, database); cache and hybrid never appear. -/
theorem no_cache_strategy_is_database (cbo : Bool) (h : Option CacheHealth) :
    (determine_search_strategy false cbo h).primary = .database ∧
    (determine_search_strategy false cbo h).fallback = .database := by
  simp [determine_search_strategy]

/-- C5: when the primary attempt and the fallback attempt both raise,
`search` returns normally with an empty result list and
`performance.errors` holding exactly the two error strings, the primary
error first. -/
theorem search_both_failures_returns_empty (hc cbo : Bool)
    (h : Option CacheHealth) (ec ed ec2 ed2 : String)
    (hyb : Except String SearchResponseM) :
    search_model hc (determine_search_strategy hc cbo h)
        (.error ec) (.error ed) (.error ec2) (.error ed2) hyb =
      ⟨[], ⟨0, .database, false,
        [if (determine_search_strategy hc cbo h).primary = .cache ∧
            hc = true then ec else ed,
         if (determine_search_strategy hc cbo h).fallback = .cache ∧
            hc = true then ec2 else ed2]⟩⟩ := by
  have hp := determine_primary_ne_hybrid hc cbo h
  simp only [search_model, search_fallback]
  split_ifs with h1 h2 h3
  all_goals rfl

/-! ## Circuit-breaker lemmas -/

theorem record_failures_threshold (cb : CircuitBreaker) (ts : List ℤ) :
    (record_failures cb ts).failure_threshold = cb.failure_threshold := by
  induction ts generalizing cb with
  | nil => rfl
  | cons t ts ih =>
      show (record_failures (cb.record_failure t) ts).failure_threshold = _
      rw [ih]
      unfold CircuitBreaker.record_failure
      split <;> rfl

theorem record_failures_timeout (cb : CircuitBreaker) (ts : List ℤ) :
    (record_failures cb ts).recovery_timeout = cb.recovery_timeout := by
  induction ts generalizing cb with
  | nil => rfl
  | cons t ts ih =>
      show (record_failures (cb.record_failure t) ts).recovery_timeout = _
      rw [ih]
      unfold CircuitBreaker.record_failure
      split <;> rfl

theorem record_failure_count (cb : CircuitBreaker) (t : ℤ) :
    (cb.record_failure t).failure_count = cb.failure_count + 1 := by
  unfold CircuitBreaker.record_failure
  split <;> rfl

theorem record_failures_count (cb : CircuitBreaker) (ts : List ℤ) :
    (record_failures cb ts).failure_count =
      cb.failure_count + ts.length := by
  induction ts generalizing cb with
  | nil => rfl
  | cons t ts ih =>
      show (record_failures (cb.record_failure t) ts).failure_count = _
      rw [ih, record_failure_count]
      simp only [List.length_cons]
      omega

/-- After a nonempty run of recorded failures reaching the threshold, the
breaker is OPEN. -/
theorem record_failures_opens (cb : CircuitBreaker) (ts : List ℤ)
    (hne : ts ≠ [])
    (hth : cb.failure_threshold ≤ cb.failure_count + ts.length) :
    (record_failures cb ts).state = .opened := by
  induction ts generalizing cb with
  | nil => exact absurd rfl hne
  | cons t ts ih =>
      rcases ts with _ | ⟨t2, ts2⟩
      · show (cb.record_failure t).state = .opened
        unfold CircuitBreaker.record_failure
        rw [if_pos]
        simp only [List.length_cons, List.length_nil] at hth
        omega
      · show (record_failures (cb.record_failure t) (t2 :: ts2)).state = _
        apply ih
        · simp
        · rw [record_failure_count]
          unfold CircuitBreaker.record_failure
          split <;> simp only [List.length_cons] at hth ⊢ <;> omega

/-- C4: after `N ≥ failure_threshold` consecutive recorded failures
(`N ≥ 1`), a call made before `recovery_timeout` has elapsed since the
last failure short-circuits with the CIRCUIT_BREAKER_OPEN error and the
wrapped operation is not invoked. -/
theorem breaker_short_circuits {α : Type} (cb : CircuitBreaker)
    (ts : List ℤ) (now : ℤ) (op : Except String α)
    (hne : ts ≠ []) (hth : cb.failure_threshold ≤ ts.length)
    (hrt : now - (record_failures cb ts).last_failure_time <
      cb.recovery_timeout) :
    ((record_failures cb ts).call now op).result = .opened ∧
      ((record_failures cb ts).call now op).invoked = false := by
  have hopen : (record_failures cb ts).state = .opened :=
    record_failures_opens cb ts hne (by omega)
  have hio : ((record_failures cb ts).is_open now).1 = true := by
    unfold CircuitBreaker.is_open
    simp only [hopen, record_failures_timeout]
    rw [if_neg (by omega)]
  constructor <;>
    · unfold CircuitBreaker.call
      rw [if_pos hio]

/-- C4 witness: threshold 5, five failures, call 30 s after the last. -/
theorem breaker_short_circuits_witness :
    ((record_failures (mk_circuit_breaker 5 60 3) [0, 1, 2, 3, 4]).call
        30 (Except.ok (0 : Nat))).result = .opened ∧
      ((record_failures (mk_circuit_breaker 5 60 3) [0, 1, 2, 3, 4]).call
        30 (Except.ok (0 : Nat))).invoked = false :=
  breaker_short_circuits (mk_circuit_breaker 5 60 3) [0, 1, 2, 3, 4] 30
    (Except.ok 0) (by decide) (by decide) (by decide)

/-- State invariant maintained by every breaker transition: away from
CLOSED the failure count has reached the threshold. -/
def cb_inv (cb : CircuitBreaker) : Prop :=
  cb.state ≠ .closed → cb.failure_threshold ≤ cb.failure_count

theorem cb_step_inv (cb : CircuitBreaker) (e : CBEvent) (h : cb_inv cb) :
    cb_inv (cb_step cb e) := by
  obtain ⟨ft, rt, st, fc, sc, lft, stt⟩ := cb
  unfold cb_inv at h ⊢
  rcases e with _ | t | t <;> rcases stt with _ | _ | _ <;>
    simp only [cb_step, CircuitBreaker.record_success,
      CircuitBreaker.record_failure, CircuitBreaker.is_open] at h ⊢ <;>
    try split
  all_goals first
    | (intro hne; exact absurd rfl hne)
    | (intro hne; exact absurd trivial hne)
    | (intro hne; omega)
    | (intro hne; exact h (by simp))
    | (intro hne; have h2 := h (by simp); omega)
    | (intro hne; simp_all)

theorem cb_run_inv (ft : Nat) (rt : ℤ) (st : Nat) (evs : List CBEvent) :
    cb_inv (cb_run ft rt st evs) := by
  have base : cb_inv (mk_circuit_breaker ft rt st) := by
    intro h
    exact absurd rfl h
  show cb_inv (evs.foldl cb_step (mk_circuit_breaker ft rt st))
  generalize mk_circuit_breaker ft rt st = cb at base ⊢
  induction evs generalizing cb with
  | nil => exact base
  | cons e evs ih => exact ih (cb_step cb e) (cb_step_inv cb e base)

theorem record_failure_success_count (cb : CircuitBreaker) (t : ℤ) :
    (cb.record_failure t).success_count = cb.success_count := by
  unfold CircuitBreaker.record_failure
  split <;> rfl

/-- C2 (amended): on every reachable breaker in HALF_OPEN, recording one
failure returns the breaker to OPEN, but `success_count` is left
unchanged (it is not reset to zero). -/
theorem halfopen_failure_reopens (ft : Nat) (rt : ℤ) (st : Nat)
    (evs : List CBEvent) (t : ℤ)
    (hho : (cb_run ft rt st evs).state = .halfOpen) :
    ((cb_run ft rt st evs).record_failure t).state = .opened ∧
      ((cb_run ft rt st evs).record_failure t).success_count =
        (cb_run ft rt st evs).success_count := by
  refine ⟨?_, record_failure_success_count _ t⟩
  have hinv := cb_run_inv ft rt st evs (by rw [hho]; simp)
  unfold CircuitBreaker.record_failure
  rw [if_pos (by omega)]

/-- C2 witness: a concrete reachable HALF_OPEN breaker. -/
theorem halfopen_failure_reopens_witness :
    ((cb_run 1 60 3 [.failure 0, .observe 60, .success]).record_failure
        70).state = .opened ∧
      ((cb_run 1 60 3 [.failure 0, .observe 60, .success]).record_failure
        70).success_count =
        (cb_run 1 60 3 [.failure 0, .observe 60, .success]).success_count :=
  halfopen_failure_reopens 1 60 3 [.failure 0, .observe 60, .success] 70
    (by decide)

/-- C2 counterexample: a reachable HALF_OPEN breaker with
`success_count = 1`; recording a failure moves it to OPEN but leaves
`success_count = 1`, refuting "resets success_count to zero". -/
theorem claim_c2_counterexample :
    (cb_run 1 60 3 [.failure 0, .observe 60, .success]).state =
        .halfOpen ∧
      ((cb_run 1 60 3 [.failure 0, .observe 60, .success]).record_failure
          70).state = .opened ∧
      ((cb_run 1 60 3 [.failure 0, .observe 60, .success]).record_failure
          70).success_count = 1 ∧
      ¬ ((cb_run 1 60 3 [.failure 0, .observe 60,
          .success]).record_failure 70).success_count = 0 := by
  decide

/-- C8 (code bug): `SmartSearchConfig.__post_init__` documents the default
`recovery_timeout` as one minute in milliseconds (60000), but
`CircuitBreaker.is_open` compares it against `time.time()` differences in
seconds.  Under the default configuration a breaker that opened at time 0
is still OPEN when observed 60 seconds later (the spec's documented
recovery point), and recovers only after 60000 seconds. -/
theorem cb_recovery_default_units_bug :
    default_orchestrator_breaker.recovery_timeout = 60000 ∧
      (record_failures default_orchestrator_breaker
          [0, 0, 0, 0, 0]).state = .opened ∧
      ((record_failures default_orchestrator_breaker
          [0, 0, 0, 0, 0]).is_open 60).1 = true ∧
      ((record_failures default_orchestrator_breaker
          [0, 0, 0, 0, 0]).is_open 60).2.state = .opened ∧
      ((record_failures default_orchestrator_breaker
          [0, 0, 0, 0, 0]).is_open 60000).1 = false := by
  decide

/-! ## Union merge (C6) -/

theorem dedup_by_id_aux_subset (seen : List String)
    (l : List SearchResult) (r : SearchResult)
    (hr : r ∈ dedup_by_id_aux seen l) : r ∈ l := by
  induction l generalizing seen with
  | nil => simpa [dedup_by_id_aux] using hr
  | cons x xs ih =>
      unfold dedup_by_id_aux at hr
      split at hr
      · exact List.mem_cons_of_mem x (ih seen hr)
      · rcases List.mem_cons.mp hr with h | h
        · exact h ▸ List.mem_cons_self x xs
        · exact List.mem_cons_of_mem x (ih (x.id :: seen) h)

/-- Every survivor of the dedup pass is outside the seen set and is the
first element of the list carrying its id. -/
theorem dedup_by_id_aux_first (seen : List String)
    (l : List SearchResult) (r : SearchResult)
    (hr : r ∈ dedup_by_id_aux seen l) :
    r.id ∉ seen ∧ l.find? (fun x => x.id == r.id) = some r := by
  induction l generalizing seen with
  | nil => simp [dedup_by_id_aux] at hr
  | cons x xs ih =>
      unfold dedup_by_id_aux at hr
      split at hr
      · rename_i hseen
        rcases ih seen hr with ⟨h1, h2⟩
        refine ⟨h1, ?_⟩
        have hne : x.id ≠ r.id := fun hEq => h1 (hEq ▸ hseen)
        rw [List.find?_cons_of_neg, h2]
        simpa using hne
      · rename_i hseen
        rcases List.mem_cons.mp hr with h | h
        · subst h
          refine ⟨hseen, ?_⟩
          rw [List.find?_cons_of_pos]
          simp
        · rcases ih (x.id :: seen) h with ⟨h1, h2⟩
          simp only [List.mem_cons, not_or] at h1
          refine ⟨h1.2, ?_⟩
          rw [List.find?_cons_of_neg, h2]
          simpa using fun hEq => h1.1 hEq.symm

theorem dedup_by_id_aux_nodup (seen : List String)
    (l : List SearchResult) :
    ((dedup_by_id_aux seen l).map SearchResult.id).Nodup := by
  induction l generalizing seen with
  | nil => simp [dedup_by_id_aux]
  | cons x xs ih =>
      unfold dedup_by_id_aux
      split
      · exact ih seen
      · simp only [List.map_cons, List.nodup_cons]
        refine ⟨?_, ih (x.id :: seen)⟩
        intro hmem
        rcases List.mem_map.mp hmem with ⟨r, hr, hid⟩
        rcases dedup_by_id_aux_first _ _ _ hr with ⟨h1, _⟩
        exact h1 (hid ▸ List.mem_cons_self x.id seen)

theorem dedup_by_id_aux_covers (seen : List String)
    (l : List SearchResult) (i : String)
    (hi : i ∈ l.map SearchResult.id) (hs : i ∉ seen) :
    i ∈ (dedup_by_id_aux seen l).map SearchResult.id := by
  induction l generalizing seen with
  | nil => simp at hi
  | cons x xs ih =>
      rw [List.map_cons, List.mem_cons] at hi
      unfold dedup_by_id_aux
      split
      · rename_i hseen
        rcases hi with h | h
        · exact absurd (h ▸ hseen) hs
        · exact ih seen h hs
      · rename_i hseen
        rcases hi with h | h
        · simp [h]
        · by_cases hx : i = x.id
          · simp [hx]
          · simp only [List.map_cons, List.mem_cons]
            refine Or.inr (ih (x.id :: seen) h ?_)
            simp only [List.mem_cons, not_or]
            exact ⟨hx, hs⟩

/-- C6 (amended): union merge emits each id of `ids(cache) ∪ ids(db)`
exactly once, resolving a duplicated id to the first (cache-side)
occurrence, and orders the output by relevance descending.  (The cache's
internal relative order is not preserved in general: the final sort
reorders it; see the counterexample.) -/
theorem union_merge_characterization (c d : List SearchResult) :
    ((union_merge c d).map SearchResult.id).Nodup ∧
      (∀ i, i ∈ (union_merge c d).map SearchResult.id ↔
        i ∈ c.map SearchResult.id ∨ i ∈ d.map SearchResult.id) ∧
      (union_merge c d).length =
        ((c.map SearchResult.id) ++ (d.map SearchResult.id)).toFinset.card ∧
      (∀ r ∈ union_merge c d,
        (c ++ d).find? (fun x => x.id == r.id) = some r) ∧
      (union_merge c d).Pairwise
        (fun a b => b.relevance_score ≤ a.relevance_score) := by
  have hperm : (union_merge c d).Perm (dedup_by_id (c ++ d)) :=
    py_sorted_desc_perm _
  have hmapperm : ((union_merge c d).map SearchResult.id).Perm
      ((dedup_by_id (c ++ d)).map SearchResult.id) :=
    hperm.map SearchResult.id
  have hnd : ((union_merge c d).map SearchResult.id).Nodup :=
    hmapperm.nodup_iff.mpr (dedup_by_id_aux_nodup [] (c ++ d))
  have hiff : ∀ i, i ∈ (union_merge c d).map SearchResult.id ↔
      i ∈ c.map SearchResult.id ∨ i ∈ d.map SearchResult.id := by
    intro i
    rw [hmapperm.mem_iff]
    constructor
    · intro hmem
      rcases List.mem_map.mp hmem with ⟨r, hr, hid⟩
      have := dedup_by_id_aux_subset [] (c ++ d) r hr
      rcases List.mem_append.mp this with h | h
      · exact Or.inl (hid ▸ List.mem_map_of_mem SearchResult.id h)
      · exact Or.inr (hid ▸ List.mem_map_of_mem SearchResult.id h)
    · intro hmem
      apply dedup_by_id_aux_covers [] (c ++ d) i _ (by simp)
      rcases hmem with h | h <;> rw [List.map_append] <;>
        simp [List.mem_append]
      · exact Or.inl (by simpa using h)
      · exact Or.inr (by simpa using h)
  refine ⟨hnd, hiff, ?_, ?_, py_sorted_desc_sorted _⟩
  · have hlen : (union_merge c d).length =
        ((union_merge c d).map SearchResult.id).length :=
      (List.length_map _ _).symm
    rw [hlen, ← List.toFinset_card_of_nodup hnd]
    congr 1
    apply Finset.ext
    intro i
    simp only [List.mem_toFinset, hiff, List.mem_append]
  · intro r hr
    have hmem : r ∈ dedup_by_id (c ++ d) := hperm.mem_iff.mp hr
    exact (dedup_by_id_aux_first [] (c ++ d) r hmem).2

/-- C6 witness at a concrete instance (id B occurs on both sides and is
resolved to the cache occurrence). -/
theorem union_merge_characterization_witness :
    ([mk_search_result "A" "" 50, mk_search_result "B" "" 90] ++
        [mk_search_result "B" "" 70]).find?
      (fun x => x.id == "B") = some (mk_search_result "B" "" 90) := by
  have h := (union_merge_characterization
    [mk_search_result "A" "" 50, mk_search_result "B" "" 90]
    [mk_search_result "B" "" 70]).2.2.2.1
  have hb : mk_search_result "B" "" 90 ∈
      union_merge [mk_search_result "A" "" 50, mk_search_result "B" "" 90]
        [mk_search_result "B" "" 70] := by decide
  exact h (mk_search_result "B" "" 90) hb

/-- C6 counterexample: the cache-exclusive id A precedes B in the cache
list but follows it in the union-merge output, refuting the claimed
preservation of the cache's relative ordering. -/
theorem claim_c6_counterexample :
    ([mk_search_result "A" "" 50, mk_search_result "B" "" 90].map
        SearchResult.id = ["A", "B"]) ∧
      (union_merge [mk_search_result "A" "" 50, mk_search_result "B" "" 90]
          []).map SearchResult.id = ["B", "A"] := by
  decide

/-! ## Relevance bound (C3) -/

theorem db_map_values_mem (l : List SearchResult)
    (m : List (String × SearchResult)) (S : List SearchResult)
    (hl : ∀ r ∈ l, r ∈ S) (hm : ∀ kv ∈ m, Prod.snd kv ∈ S) :
    ∀ kv ∈ l.foldl (fun m r => upsert m r.id r) m, Prod.snd kv ∈ S := by
  induction l generalizing m with
  | nil => exact hm
  | cons x xs ih =>
      refine ih _ (fun r hr => hl r (List.mem_cons_of_mem x hr)) ?_
      intro kv hkv
      rcases mem_upsert m x.id x kv hkv with h | h
      · exact hm kv h
      · rw [h]
        exact hl x (List.mem_cons_self x xs)

theorem intersection_fold_mem (c d : List SearchResult)
    (l : List SearchResult) (acc : List SearchResult)
    (hl : ∀ x ∈ l, x ∈ c)
    (hacc : ∀ x ∈ acc, x ∈ c ∨ x ∈ d) :
    ∀ x ∈ l.foldl (fun acc cr =>
      match List.lookup cr.id (db_results_map d) with
      | some dbr =>
          acc ++ [if dbr.relevance_score ≤ cr.relevance_score then cr
                  else dbr]
      | none => acc) acc, x ∈ c ∨ x ∈ d := by
  induction l generalizing acc with
  | nil => exact hacc
  | cons y ys ih =>
      refine ih _ (fun x hx => hl x (List.mem_cons_of_mem y hx)) ?_
      intro x hx
      beta_reduce at hx
      rcases hlk : List.lookup y.id (db_results_map d) with _ | dbr <;>
        rw [hlk] at hx
      · exact hacc x hx
      · rcases List.mem_append.mp hx with h | h
        · exact hacc x h
        · rw [List.mem_singleton.mp h]
          split
          · exact Or.inl (hl y (List.mem_cons_self y ys))
          · exact Or.inr (db_map_values_mem d [] d (fun r hr => hr)
              (by simp) _ (lookup_mem _ _ _ hlk))

theorem intersection_merge_mem (c d : List SearchResult)
    (r : SearchResult) (hr : r ∈ intersection_merge c d) :
    r ∈ c ∨ r ∈ d := by
  have hmem := (py_sorted_desc_perm _).mem_iff.mp hr
  exact intersection_fold_mem c d c [] (fun x hx => hx) (by simp) r hmem

theorem weighted_cache_fold_ok (cw : ℚ) (c : List SearchResult)
    (m : List (String × SearchResult))
    (hm : ∀ kv ∈ m, score_ok (Prod.snd kv)) :
    ∀ kv ∈ c.foldl (weighted_cache_step cw) m, score_ok (Prod.snd kv) := by
  induction c generalizing m with
  | nil => exact hm
  | cons x xs ih =>
      refine ih _ ?_
      intro kv hkv
      rcases mem_upsert _ _ _ kv hkv with h | h
      · exact hm kv h
      · rw [h]
        exact replace_score_ok _ _

theorem weighted_db_fold_ok (dw : ℚ) (d : List SearchResult)
    (m : List (String × SearchResult))
    (hm : ∀ kv ∈ m, score_ok (Prod.snd kv)) :
    ∀ kv ∈ d.foldl (weighted_db_step dw) m, score_ok (Prod.snd kv) := by
  induction d generalizing m with
  | nil => exact hm
  | cons x xs ih =>
      refine ih _ ?_
      unfold weighted_db_step
      rcases List.lookup x.id m with _ | existing <;>
        · intro kv hkv
          rcases mem_upsert _ _ _ kv hkv with h | h
          · exact hm kv h
          · rw [h]
            exact replace_score_ok _ _

theorem weighted_merge_ok (c d : List SearchResult) (cw dw : ℚ) :
    results_ok (weighted_merge c d cw dw) := by
  intro r hr
  have hmem := (py_sorted_desc_perm _).mem_iff.mp hr
  rcases List.mem_map.mp hmem with ⟨kv, hkv, hsnd⟩
  rw [← hsnd]
  exact weighted_db_fold_ok dw d _
    (weighted_cache_fold_ok cw c [] (by simp)) kv hkv

theorem union_merge_ok (c d : List SearchResult)
    (hc : results_ok c) (hd : results_ok d) :
    results_ok (union_merge c d) := by
  intro r hr
  have hmem := (py_sorted_desc_perm _).mem_iff.mp hr
  rcases List.mem_append.mp (dedup_by_id_aux_subset [] (c ++ d) r hmem)
    with h | h
  · exact hc r h
  · exact hd r h

theorem merge_search_results_ok (algorithm : String) (cw dw : ℚ)
    (c d : List SearchResult) (hc : results_ok c) (hd : results_ok d) :
    results_ok (merge_search_results algorithm cw dw c d) := by
  unfold merge_search_results
  split_ifs
  · exact union_merge_ok c d hc hd
  · intro r hr
    rcases intersection_merge_mem c d r hr with h | h
    · exact hc r h
    · exact hd r h
  · exact weighted_merge_ok c d cw dw
  · exact union_merge_ok c d hc hd

theorem search_fallback_ok (hc : Bool) (strat : SearchStrategyInfo)
    (e1 : String) (c2 d2 : Except String (List SearchResult))
    (h3 : op_ok c2) (h4 : op_ok d2) :
    results_ok (search_fallback hc strat e1 c2 d2).results := by
  by_cases hcond : strat.fallback = SearchStrategy.cache ∧ hc = true
  · simp only [search_fallback, if_pos hcond]
    rcases c2 with e2 | rs2
    · simp [results_ok]
    · exact h3 rs2 rfl
  · simp only [search_fallback, if_neg hcond]
    rcases d2 with e2 | rs2
    · simp [results_ok]
    · exact h4 rs2 rfl

theorem search_model_ok (hc : Bool) (strat : SearchStrategyInfo)
    (c1 d1 c2 d2 : Except String (List SearchResult))
    (hyb : Except String SearchResponseM)
    (h1 : op_ok c1) (h2 : op_ok d1) (h3 : op_ok c2) (h4 : op_ok d2)
    (h5 : hybrid_ok hyb) :
    results_ok (search_model hc strat c1 d1 c2 d2 hyb).results := by
  by_cases hp1 : strat.primary = SearchStrategy.cache ∧ hc = true
  · simp only [search_model, if_pos hp1]
    rcases c1 with e1 | rs1
    · exact search_fallback_ok hc strat e1 c2 d2 h3 h4
    · exact h1 rs1 rfl
  · by_cases hp2 : strat.primary = SearchStrategy.hybrid
    · simp only [search_model, if_neg hp1, if_pos hp2]
      rcases hyb with e1 | resp
      · exact search_fallback_ok hc strat e1 c2 d2 h3 h4
      · exact h5 resp rfl
    · simp only [search_model, if_neg hp1, if_neg hp2]
      rcases d1 with e1 | rs1
      · exact search_fallback_ok hc strat e1 c2 d2 h3 h4
      · exact h2 rs1 rfl

theorem hybrid_search_core_ok (algorithm : String) (cw dw : ℚ)
    (c1 d1 : Except String (List SearchResult))
    (h1 : op_ok c1) (h2 : op_ok d1) :
    op_ok (hybrid_search_core algorithm cw dw c1 d1) := by
  rcases c1 with e1 | rs1 <;> rcases d1 with e2 | rs2 <;>
    intro rs hrs <;> simp only [hybrid_search_core] at hrs
  · exact absurd hrs (by simp)
  · cases hrs
    exact h2 rs2 rfl
  · cases hrs
    exact h1 rs1 rfl
  · cases hrs
    exact merge_search_results_ok algorithm cw dw rs1 rs2
      (h1 rs1 rfl) (h2 rs2 rfl)

theorem mask_sensitive_fields_ok (mt : String → String)
    (rs : List SearchResult) (h : results_ok rs) :
    results_ok (mask_sensitive_fields mt rs) := by
  intro r hr
  rcases List.mem_map.mp hr with ⟨r0, hr0, hEq⟩
  have := h r0 hr0
  rw [← hEq]
  exact this

/-- C3: every result list handed back to the caller satisfies the
relevance bound `0 ≤ relevance_score ≤ 100`: (i) every merge algorithm,
at arbitrary configured weights, maps bounded inputs to bounded outputs
(the weighted merge needs no hypothesis at all, because every
reconstruction through `dataclasses.replace` re-clamps); (ii) `search`
returns bounded results whenever the backend calls do; (iii) the hybrid
core does too; (iv) the governance masking of `secure_search` preserves
the bound. -/
theorem relevance_bound_everywhere :
    (∀ algorithm cw dw c d, results_ok c → results_ok d →
      results_ok (merge_search_results algorithm cw dw c d)) ∧
    (∀ hc strat c1 d1 c2 d2 hyb, op_ok c1 → op_ok d1 → op_ok c2 →
      op_ok d2 → hybrid_ok hyb →
      results_ok (search_model hc strat c1 d1 c2 d2 hyb).results) ∧
    (∀ algorithm cw dw c1 d1, op_ok c1 → op_ok d1 →
      op_ok (hybrid_search_core algorithm cw dw c1 d1)) ∧
    (∀ mt rs, results_ok rs → results_ok (mask_sensitive_fields mt rs)) :=
  ⟨fun algorithm cw dw c d hc hd =>
      merge_search_results_ok algorithm cw dw c d hc hd,
   fun hc strat c1 d1 c2 d2 hyb h1 h2 h3 h4 h5 =>
      search_model_ok hc strat c1 d1 c2 d2 hyb h1 h2 h3 h4 h5,
   fun algorithm cw dw c1 d1 h1 h2 =>
      hybrid_search_core_ok algorithm cw dw c1 d1 h1 h2,
   fun mt rs h => mask_sensitive_fields_ok mt rs h⟩

/-- C3 witness: the weighted merge at oversized weights still lands in
`[0, 100]` on a concrete instance. -/
theorem relevance_bound_everywhere_witness :
    results_ok (merge_search_results ("weighted") 2 3
      [mk_search_result "A" "" 80] [mk_search_result "A" "" 90]) :=
  relevance_bound_everywhere.1 ("weighted") 2 3
    [mk_search_result "A" "" 80] [mk_search_result "A" "" 90]
    (by decide) (by decide)

/-! ## Weighted merge characterization (C1) -/

theorem lookup_none_not_mem {β : Type} (m : List (String × β)) (k : String)
    (h : List.lookup k m = none) : k ∉ m.map Prod.fst := by
  induction m with
  | nil => simp
  | cons hd tl ih =>
      rcases hd with ⟨k', v'⟩
      by_cases hk : k = k'
      · subst hk
        simp [List.lookup] at h
      · have h' : List.lookup k tl = none := by
          simpa [List.lookup,
            (beq_eq_false_iff_ne (a := k) (b := k')).mpr hk] using h
        simp only [List.map_cons, List.mem_cons, not_or]
        exact ⟨hk, ih h'⟩

theorem weighted_cache_fold_eq (cw : ℚ) (c : List SearchResult)
    (m : List (String × SearchResult))
    (hnd : (c.map SearchResult.id).Nodup)
    (hdisj : ∀ r ∈ c, r.id ∉ m.map Prod.fst) :
    c.foldl (weighted_cache_step cw) m =
      m ++ c.map (fun r =>
        (r.id, replace_score r (py_int ((r.relevance_score : ℚ) * cw)))) := by
  induction c generalizing m with
  | nil => simp
  | cons x xs ih =>
      have hx : x.id ∉ m.map Prod.fst := hdisj x (List.mem_cons_self x xs)
      have hstep : weighted_cache_step cw m x =
          m ++ [(x.id, replace_score x
            (py_int ((x.relevance_score : ℚ) * cw)))] :=
        upsert_of_not_mem m x.id _ hx
      show xs.foldl (weighted_cache_step cw) (weighted_cache_step cw m x) = _
      rw [hstep, ih]
      · simp
      · simpa using hnd.of_cons
      · intro r hr
        simp only [List.map_append, List.mem_append, not_or]
        refine ⟨hdisj r (List.mem_cons_of_mem x hr), ?_⟩
        simp only [List.map_cons, List.map_nil, List.mem_singleton]
        intro hEq
        rw [List.map_cons, List.nodup_cons] at hnd
        exact hnd.1 (hEq ▸ List.mem_map_of_mem SearchResult.id hr)

theorem string_contains_iff (l : List String) (a : String) :
    l.contains a = true ↔ a ∈ l :=
  List.elem_iff

theorem weighted_db_fold_eq (dw : ℚ) (d : List SearchResult)
    (m : List (String × SearchResult))
    (hdnd : (d.map SearchResult.id).Nodup)
    (hm : (m.map Prod.fst).Nodup) :
    d.foldl (weighted_db_step dw) m =
      m.map (fun kv =>
        match d.find? (fun x => x.id == kv.1) with
        | some rd =>
            (kv.1, replace_score kv.2 (kv.2.relevance_score +
              py_int ((rd.relevance_score : ℚ) * dw)))
        | none => kv)
      ++ (d.filter (fun x => !((m.map Prod.fst).contains x.id))).map
          (fun r =>
            (r.id, replace_score r (py_int ((r.relevance_score : ℚ) * dw)))) := by
  induction d generalizing m with
  | nil =>
      simp only [List.foldl_nil, List.find?_nil, List.filter_nil,
        List.map_nil, List.append_nil]
      exact (List.map_id' m).symm
  | cons r ds ih =>
      have hrds : r.id ∉ ds.map SearchResult.id := by
        rw [List.map_cons, List.nodup_cons] at hdnd
        exact hdnd.1
      have hdnd' : (ds.map SearchResult.id).Nodup := by
        rw [List.map_cons, List.nodup_cons] at hdnd
        exact hdnd.2
      have hfind_ds_none : ∀ i, i = r.id →
          ds.find? (fun x => x.id == i) = none := by
        intro i hi
        rw [List.find?_eq_none]
        intro x hx
        rw [beq_iff_eq]
        intro hEq
        exact hrds (hi ▸ hEq ▸ List.mem_map_of_mem SearchResult.id hx)
      show ds.foldl (weighted_db_step dw) (weighted_db_step dw m r) = _
      rcases hlk : List.lookup r.id m with _ | ex
      · -- id absent from the map: the entry is appended
        have hnotmem : r.id ∉ m.map Prod.fst := lookup_none_not_mem m r.id hlk
        have hstep : weighted_db_step dw m r =
            m ++ [(r.id, replace_score r
              (py_int ((r.relevance_score : ℚ) * dw)))] := by
          unfold weighted_db_step
          rw [hlk]
          exact upsert_of_not_mem m r.id _ hnotmem
        have hkeys' : ((m ++ [(r.id, replace_score r
            (py_int ((r.relevance_score : ℚ) * dw)))]).map Prod.fst).Nodup := by
          simp only [List.map_append, List.map_cons, List.map_nil]
          refine List.Nodup.append hm (by simp) ?_
          intro a ha hb
          simp only [List.mem_singleton] at hb
          exact hnotmem (hb ▸ ha)
        rw [hstep, ih _ hdnd' hkeys']
        simp only [List.map_append, List.map_cons, List.map_nil]
        rw [hfind_ds_none r.id rfl]
        have hmap1 : ∀ kv ∈ m,
            (match ds.find? (fun x => x.id == kv.1) with
             | some rd => (kv.1, replace_score kv.2 (kv.2.relevance_score +
                 py_int ((rd.relevance_score : ℚ) * dw)))
             | none => kv) =
            (match (r :: ds).find? (fun x => x.id == kv.1) with
             | some rd => (kv.1, replace_score kv.2 (kv.2.relevance_score +
                 py_int ((rd.relevance_score : ℚ) * dw)))
             | none => kv) := by
          intro kv hkv
          have hne : ¬ (r.id == kv.1) = true := by
            rw [beq_iff_eq]
            intro hEq
            exact hnotmem (hEq ▸ List.mem_map_of_mem Prod.fst hkv)
          rw [List.find?_cons_of_neg (p := fun x => x.id == kv.1) ds hne]
        have hfiltercongr : ∀ x ∈ ds,
            (!(((m.map Prod.fst) ++ [r.id]).contains x.id)) =
            (!((m.map Prod.fst).contains x.id)) := by
          intro x hx
          have hne : x.id ≠ r.id := by
            intro hEq
            exact hrds (hEq ▸ List.mem_map_of_mem SearchResult.id hx)
          have : ((m.map Prod.fst) ++ [r.id]).contains x.id =
              (m.map Prod.fst).contains x.id := by
            rw [Bool.eq_iff_iff, string_contains_iff, string_contains_iff]
            simp [List.mem_append, hne]
          rw [this]
        have hfilterhead : (r :: ds).filter (fun x =>
            !((m.map Prod.fst).contains x.id)) =
            r :: ds.filter (fun x => !((m.map Prod.fst).contains x.id)) := by
          rw [List.filter_cons_of_pos]
          simp only [Bool.not_eq_true']
          rw [← Bool.not_eq_true, string_contains_iff]
          exact hnotmem
        rw [List.map_congr_left hmap1, hfilterhead]
        have hfilter2 : ds.filter (fun x =>
            !(((m.map Prod.fst) ++ [r.id]).contains x.id)) =
            ds.filter (fun x => !((m.map Prod.fst).contains x.id)) :=
          List.filter_congr hfiltercongr
        simp only [List.map_append, List.map_cons, List.map_nil] at hfilter2 ⊢
        rw [hfilter2]
        simp [List.append_assoc]
      · -- id present: combined in place
        have hmem : (r.id, ex) ∈ m := lookup_mem m r.id ex hlk
        have hkeymem : r.id ∈ m.map Prod.fst :=
          List.mem_map_of_mem Prod.fst hmem
        have hstep : weighted_db_step dw m r =
            m.map (fun kv => if kv.1 = r.id then
              (r.id, replace_score ex (ex.relevance_score +
                py_int ((r.relevance_score : ℚ) * dw)))
              else kv) := by
          unfold weighted_db_step
          rw [hlk]
          exact upsert_eq_map_of_nodup m r.id _ hm hkeymem
        have hkeys : ((m.map (fun kv => if kv.1 = r.id then
              (r.id, replace_score ex (ex.relevance_score +
                py_int ((r.relevance_score : ℚ) * dw)))
              else kv)).map Prod.fst) = m.map Prod.fst := by
          rw [List.map_map]
          apply List.map_congr_left
          intro kv _
          by_cases hEq : kv.1 = r.id
          · simp [hEq]
          · simp [hEq]
        rw [hstep, ih _ hdnd' (by rw [hkeys]; exact hm)]
        rw [List.map_map, hkeys]
        have hmap2 : ∀ kv ∈ m,
            ((fun kv =>
              match ds.find? (fun x => x.id == kv.1) with
              | some rd => (kv.1, replace_score kv.2 (kv.2.relevance_score +
                  py_int ((rd.relevance_score : ℚ) * dw)))
              | none => kv) ∘
             (fun kv => if kv.1 = r.id then
               (r.id, replace_score ex (ex.relevance_score +
                 py_int ((r.relevance_score : ℚ) * dw)))
               else kv)) kv =
            (match (r :: ds).find? (fun x => x.id == kv.1) with
             | some rd => (kv.1, replace_score kv.2 (kv.2.relevance_score +
                 py_int ((rd.relevance_score : ℚ) * dw)))
             | none => kv) := by
          intro kv hkv
          by_cases hEq : kv.1 = r.id
          · have h1 : (r :: ds).find? (fun x => x.id == kv.1) = some r :=
              List.find?_cons_of_pos ds (by rw [beq_iff_eq]; exact hEq.symm)
            rw [h1]
            have hkv2 : kv.2 = ex := by
              have h3 := lookup_of_nodup_mem m kv.1 kv.2 hm
                (by simpa using hkv)
              rw [hEq, hlk] at h3
              exact (Option.some.inj h3).symm
            simp only [Function.comp_apply, if_pos hEq]
            rw [hfind_ds_none _ rfl]
            simp [hEq, hkv2]
          · have hne : ¬ (r.id == kv.1) = true := by
              rw [beq_iff_eq]
              intro h1
              exact hEq h1.symm
            simp only [Function.comp_apply, if_neg hEq]
            rw [List.find?_cons_of_neg (p := fun x => x.id == kv.1) ds hne]
        have hfiltereq : (r :: ds).filter (fun x =>
            !((m.map Prod.fst).contains x.id)) =
            ds.filter (fun x => !((m.map Prod.fst).contains x.id)) := by
          rw [List.filter_cons_of_neg]
          simp only [Bool.not_eq_true', Bool.not_eq_true]
          rw [Bool.not_eq_false, string_contains_iff]
          exact hkeymem
        rw [List.map_congr_left hmap2, hfiltereq]

/-- C1 (amended): with distinct ids on each side, the weighted merge
equals its specification `weighted_merge_spec` — cache-only ids get the
clamped `int()`-truncated weighted cache score, db-only ids the clamped
truncated weighted db score, ids on both sides the clamp of the clamped
cache part plus the truncated db part — ordered by combined score
descending. -/
theorem weighted_merge_matches_spec (c d : List SearchResult) (cw dw : ℚ)
    (hc : (c.map SearchResult.id).Nodup)
    (hd : (d.map SearchResult.id).Nodup) :
    weighted_merge c d cw dw = weighted_merge_spec cw dw c d ∧
      (weighted_merge c d cw dw).Pairwise
        (fun a b => b.relevance_score ≤ a.relevance_score) := by
  constructor
  · have hkeys1 : ((c.map (fun r => (r.id, replace_score r
        (py_int ((r.relevance_score : ℚ) * cw))))).map Prod.fst).Nodup := by
      rw [List.map_map]
      exact hc
    show py_sorted_desc
      ((d.foldl (weighted_db_step dw)
        (c.foldl (weighted_cache_step cw) [])).map Prod.snd) = _
    rw [weighted_cache_fold_eq cw c [] hc (by simp), List.nil_append,
      weighted_db_fold_eq dw d _ hd hkeys1]
    unfold weighted_merge_spec
    congr 1
    rw [List.map_append, List.map_map, List.map_map, List.map_map]
    congr 1
    · apply List.map_congr_left
      intro r _
      show (match d.find? (fun x : SearchResult => x.id == r.id) with
        | some rd =>
            (r.id, replace_score
              (replace_score r (py_int ((r.relevance_score : ℚ) * cw)))
              ((replace_score r
                (py_int ((r.relevance_score : ℚ) * cw))).relevance_score +
                py_int ((rd.relevance_score : ℚ) * dw)))
        | none =>
            (r.id, replace_score r
              (py_int ((r.relevance_score : ℚ) * cw)))).2 = _
      rcases hf : d.find? (fun x : SearchResult => x.id == r.id)
        with _ | rd <;> rfl
    · simp only [List.map_map]
      rfl
  · exact py_sorted_desc_sorted _

/-- C1 witness: the characterization applied at the S3 example lists. -/
theorem weighted_merge_matches_spec_witness :
    weighted_merge
        [mk_search_result "A" "" 80, mk_search_result "B" "" 60]
        [mk_search_result "B" "" 90, mk_search_result "C" "" 50]
        (7/10) (3/10) =
      weighted_merge_spec (7/10) (3/10)
        [mk_search_result "A" "" 80, mk_search_result "B" "" 60]
        [mk_search_result "B" "" 90, mk_search_result "C" "" 50] ∧
      (weighted_merge
        [mk_search_result "A" "" 80, mk_search_result "B" "" 60]
        [mk_search_result "B" "" 90, mk_search_result "C" "" 50]
        (7/10) (3/10)).Pairwise
        (fun a b => b.relevance_score ≤ a.relevance_score) :=
  weighted_merge_matches_spec
    [mk_search_result "A" "" 80, mk_search_result "B" "" 60]
    [mk_search_result "B" "" 90, mk_search_result "C" "" 50]
    (7/10) (3/10) (by decide) (by decide)

/-- C1 counterexample.  (i) On the spec's own S3 example the id B
receives 42 + 27 = 69, not the claimed 72 (order B, A, C still holds);
(ii) the weighting truncates rather than rounds: 98 × 0.7 = 68.6 becomes
68, where rounding gives 69; (iii) a combined score is clamped to 100,
not left as the raw sum. -/
theorem claim_c1_counterexample :
    ((weighted_merge
        [mk_search_result "A" "" 80, mk_search_result "B" "" 60]
        [mk_search_result "B" "" 90, mk_search_result "C" "" 50]
        (7/10) (3/10)).map (fun r => (r.id, r.relevance_score)) =
      [("B", 69), ("A", 56), ("C", 15)]) ∧
    ((69 : Int) ≠ 72) ∧
    ((weighted_merge [mk_search_result "A" "" 98] [] (7/10) (3/10)).map
        (fun r => (r.id, r.relevance_score)) = [("A", 68)]) ∧
    ((68 : Int) ≠ 69) ∧
    ((weighted_merge [mk_search_result "A" "" 100]
        [mk_search_result "A" "" 100] 1 1).map
        (fun r => (r.id, r.relevance_score)) = [("A", 100)]) ∧
    ((100 : Int) ≠ 200) := by
  refine ⟨?_, by decide, ?_, by decide, ?_, by decide⟩
  · norm_num [weighted_merge, weighted_cache_step, weighted_db_step, upsert,
      py_int, replace_score, clamp_score, mk_search_result, py_sorted_desc,
      py_insert_desc, List.lookup,
      (by decide : ("A" : String) ≠ ("B" : String)),
      (by decide : ("A" : String) ≠ ("C" : String)),
      (by decide : ("B" : String) ≠ ("A" : String)),
      (by decide : ("B" : String) ≠ ("C" : String)),
      (by decide : ("C" : String) ≠ ("A" : String)),
      (by decide : ("C" : String) ≠ ("B" : String)),
      (by decide : (("A" : String) == ("B" : String)) = false),
      (by decide : (("A" : String) == ("C" : String)) = false),
      (by decide : (("B" : String) == ("A" : String)) = false),
      (by decide : (("B" : String) == ("C" : String)) = false),
      (by decide : (("C" : String) == ("A" : String)) = false),
      (by decide : (("C" : String) == ("B" : String)) = false),
      (by decide : (("A" : String) == ("A" : String)) = true),
      (by decide : (("B" : String) == ("B" : String)) = true),
      (by decide : (("C" : String) == ("C" : String)) = true)]
  · norm_num [weighted_merge, weighted_cache_step, weighted_db_step, upsert,
      py_int, replace_score, clamp_score, mk_search_result, py_sorted_desc,
      py_insert_desc, List.lookup]
  · norm_num [weighted_merge, weighted_cache_step, weighted_db_step, upsert,
      py_int, replace_score, clamp_score, mk_search_result, py_sorted_desc,
      py_insert_desc, List.lookup,
      (by decide : (("A" : String) == ("A" : String)) = true)]

/-! ## Masking idempotence (C7) and frame (C10) -/

theorem py_str_str (s : List Char) : py_str (.str s) = s := rfl

theorem redact_part_idem (keep : Nat) (v : PyVal) :
    redact_part keep (redact_part keep v) = redact_part keep v := by
  by_cases ht : py_truthy v = false
  · have h1 : redact_part keep v = v := by
      unfold redact_part
      rw [if_pos ht]
    rw [h1]
    exact h1
  · have h1 : redact_part keep v = .str
        (List.replicate ((py_str v).length - keep) '*' ++
          (py_str v).drop ((py_str v).length - keep)) := by
      unfold redact_part
      rw [if_neg ht]
    rw [h1]
    by_cases ht2 : py_truthy (PyVal.str
        (List.replicate ((py_str v).length - keep) '*' ++
          (py_str v).drop ((py_str v).length - keep))) = false
    · unfold redact_part
      rw [if_pos ht2]
    · unfold redact_part
      rw [if_neg ht2]
      by_cases hn : (py_str v).length ≤ keep
      · simp [Nat.sub_eq_zero_of_le hn, py_str]
      · have hlen : ((List.replicate ((py_str v).length - keep) '*' ++
            (py_str v).drop ((py_str v).length - keep)) : List Char).length =
            (py_str v).length := by
          simp only [List.length_append, List.length_replicate,
            List.length_drop]
          omega
        have hdrop : ((List.replicate ((py_str v).length - keep) '*' ++
            (py_str v).drop ((py_str v).length - keep)) : List Char).drop
              ((py_str v).length - keep) =
            (py_str v).drop ((py_str v).length - keep) := by
          have h2 := List.drop_left
            (List.replicate ((py_str v).length - keep) '*')
            ((py_str v).drop ((py_str v).length - keep))
          simpa using h2
        simp only [py_str_str, hlen, hdrop]

theorem year_only_idem (v : PyVal) :
    year_only (year_only v) = year_only v := by
  by_cases ht : py_truthy v = false
  · have h1 : year_only v = v := by
      unfold year_only
      rw [if_pos ht]
    rw [h1]
    exact h1
  · have h1 : year_only v = .str ((py_str v).take 4) := by
      unfold year_only
      rw [if_neg ht]
    rw [h1]
    by_cases ht2 : py_truthy (PyVal.str ((py_str v).take 4)) = false
    · unfold year_only
      rw [if_pos ht2]
    · unfold year_only
      rw [if_neg ht2]
      simp [py_str_str, List.take_take]

theorem yyyy_mm_idem (v : PyVal) : yyyy_mm (yyyy_mm v) = yyyy_mm v := by
  by_cases ht : py_truthy v = false
  · have h1 : yyyy_mm v = v := by
      unfold yyyy_mm
      rw [if_pos ht]
    rw [h1]
    exact h1
  · have h1 : yyyy_mm v = .str ((py_str v).take 7) := by
      unfold yyyy_mm
      rw [if_neg ht]
    rw [h1]
    by_cases ht2 : py_truthy (PyVal.str ((py_str v).take 7)) = false
    · unfold yyyy_mm
      rw [if_pos ht2]
    · unfold yyyy_mm
      rw [if_neg ht2]
      simp [py_str_str, List.take_take]

theorem py_split_on_aux_ne_nil (sep : Char) (cur cs : List Char) :
    py_split_on_aux sep cur cs ≠ [] := by
  induction cs generalizing cur with
  | nil => simp [py_split_on_aux]
  | cons c cs ih =>
      unfold py_split_on_aux
      split
      · simp
      · exact ih (c :: cur)

theorem getLastD_of_ne_nil {α : Type} (l : List α) (d1 d2 : α)
    (h : l ≠ []) : l.getLastD d1 = l.getLastD d2 := by
  cases l with
  | nil => exact absurd rfl h
  | cons x xs => rw [List.getLastD_cons, List.getLastD_cons]

theorem py_split_on_aux_last_no_sep (sep : Char) (cur cs : List Char)
    (h : sep ∉ cur) :
    sep ∉ (py_split_on_aux sep cur cs).getLastD [] := by
  induction cs generalizing cur with
  | nil =>
      simp only [py_split_on_aux, List.getLastD_cons, List.getLastD_nil]
      simpa using h
  | cons c cs ih =>
      unfold py_split_on_aux
      split
      · rw [List.getLastD_cons,
          getLastD_of_ne_nil _ _ [] (py_split_on_aux_ne_nil sep [] cs)]
        exact ih [] (by simp)
      · rename_i hne
        exact ih (c :: cur) (by
          simp only [List.mem_cons, not_or]
          exact ⟨fun hEq => hne hEq.symm, h⟩)

theorem py_strip_subset (s : List Char) (a : Char) (h : a ∈ py_strip s) :
    a ∈ s := by
  unfold py_strip at h
  rw [List.mem_reverse] at h
  have h2 : a ∈ (s.dropWhile Char.isWhitespace).reverse :=
    (List.dropWhile_sublist Char.isWhitespace).subset h
  rw [List.mem_reverse] at h2
  exact (List.dropWhile_sublist Char.isWhitespace).subset h2

theorem city_only_idem (v : PyVal) :
    city_only (city_only v) = city_only v := by
  by_cases ht : py_truthy v = false
  · have h1 : city_only v = v := by
      unfold city_only
      rw [if_pos ht]
    rw [h1]
    exact h1
  · by_cases hc : ',' ∈ py_str v
    · have h1 : city_only v = .str
          (py_strip ((py_split_on ',' (py_str v)).getLastD [])) := by
        unfold city_only
        rw [if_neg ht]
        simp only [if_pos hc]
      have hnc : ',' ∉ py_strip ((py_split_on ',' (py_str v)).getLastD []) :=
        fun hm => py_split_on_aux_last_no_sep ',' [] (py_str v) (by simp)
          (py_strip_subset _ ',' hm)
      rw [h1]
      by_cases ht2 : py_truthy (PyVal.str
          (py_strip ((py_split_on ',' (py_str v)).getLastD []))) = false
      · unfold city_only
        rw [if_pos ht2]
      · unfold city_only
        rw [if_neg ht2]
        simp only [py_str_str, if_neg hnc]
    · have h1 : city_only v = v := by
        unfold city_only
        rw [if_neg ht]
        simp only [if_neg hc]
      rw [h1]
      exact h1

theorem lookup_upsert_self {β : Type} (m : List (String × β)) (k : String)
    (v : β) : List.lookup k (upsert m k v) = some v := by
  induction m with
  | nil => simp [upsert, List.lookup]
  | cons hd tl ih =>
      rcases hd with ⟨k', v'⟩
      by_cases h : k' = k
      · simp [upsert, if_pos h, List.lookup]
      · simp only [upsert, if_neg h, List.lookup,
          (beq_eq_false_iff_ne (a := k) (b := k')).mpr (fun hEq => h hEq.symm)]
        exact ih

theorem upsert_lookup_self {β : Type} (m : List (String × β)) (k : String)
    (v : β) (h : List.lookup k m = some v) : upsert m k v = m := by
  induction m with
  | nil => simp [List.lookup] at h
  | cons hd tl ih =>
      rcases hd with ⟨k', v'⟩
      by_cases hk : k' = k
      · subst hk
        have h' : v' = v := by
          simpa [List.lookup] using h
        show (if k' = k' then (k', v) :: tl else
          (k', v') :: upsert tl k' v) = (k', v') :: tl
        rw [if_pos rfl, h']
      · simp only [List.lookup,
          (beq_eq_false_iff_ne (a := k) (b := k')).mpr
            (fun hEq => hk hEq.symm)] at h
        simp only [upsert, if_neg hk]
        rw [ih h]

theorem lookup_upsert_ne {β : Type} (m : List (String × β)) (k f : String)
    (v : β) (hne : k ≠ f) :
    List.lookup f (upsert m k v) = List.lookup f m := by
  induction m with
  | nil =>
      simp [upsert, List.lookup,
        (beq_eq_false_iff_ne (a := f) (b := k)).mpr (fun h => hne h.symm)]
  | cons hd tl ih =>
      rcases hd with ⟨k', v'⟩
      by_cases h : k' = k
      · subst h
        simp only [upsert, if_pos rfl, List.lookup,
          (beq_eq_false_iff_ne (a := f) (b := k')).mpr (fun h => hne h.symm)]
      · simp only [upsert, if_neg h, List.lookup]
        rcases hbeq : f == k' with _ | _
        · exact ih
        · rfl

theorem idem_mask_value_idem (m : String)
    (hm : m ∈ idempotent_mask_kinds) (v : PyVal) :
    idem_mask_value m (idem_mask_value m v) = idem_mask_value m v := by
  fin_cases hm
  · simp [idem_mask_value, redact_full]
  · simpa [idem_mask_value] using redact_part_idem 4 v
  · simpa [idem_mask_value] using year_only_idem v
  · simpa [idem_mask_value] using yyyy_mm_idem v
  · simpa [idem_mask_value] using city_only_idem v
  · simp [idem_mask_value]
  · simp [idem_mask_value]

theorem apply_mask_step_idem_kind (out : Row) (tm : TokenMap) (f m : String)
    (hm : m ∈ idempotent_mask_kinds) :
    apply_mask_step (out, tm) (f, m) =
      (row_set out f (idem_mask_value m (row_get out f)), tm) := by
  fin_cases hm <;> simp [apply_mask_step, idem_mask_value]

theorem apply_mask_step_lookup_ne (out : Row) (tm : TokenMap)
    (fm : String × String) (f : String) (hne : fm.1 ≠ f) :
    List.lookup f (apply_mask_step (out, tm) fm).1 = List.lookup f out := by
  rcases fm with ⟨f', m'⟩
  dsimp only [apply_mask_step]
  split_ifs <;>
    first
      | exact lookup_upsert_ne out f' f _ hne
      | rfl

theorem apply_masks_cons (row : Row) (fm : String × String)
    (rest : List (String × String)) (tm : TokenMap) :
    apply_masks row (fm :: rest) tm =
      apply_masks (apply_mask_step (row, tm) fm).1 rest
        (apply_mask_step (row, tm) fm).2 := rfl

theorem apply_masks_tm_const (masks : List (String × String)) (row : Row)
    (tm : TokenMap)
    (hkinds : ∀ fm ∈ masks, Prod.snd fm ∈ idempotent_mask_kinds) :
    (apply_masks row masks tm).2 = tm := by
  induction masks generalizing row tm with
  | nil => rfl
  | cons fm rest ih =>
      rcases fm with ⟨f, m⟩
      rw [apply_masks_cons, apply_mask_step_idem_kind row tm f m
        (hkinds (f, m) (List.mem_cons_self _ _))]
      exact ih _ _ (fun fm hfm => hkinds fm (List.mem_cons_of_mem _ hfm))

theorem apply_masks_lookup_not_mem (masks : List (String × String))
    (row : Row) (tm : TokenMap) (f : String)
    (hf : f ∉ masks.map Prod.fst) :
    List.lookup f (apply_masks row masks tm).1 = List.lookup f row := by
  induction masks generalizing row tm with
  | nil => rfl
  | cons fm rest ih =>
      simp only [List.map_cons, List.mem_cons, not_or] at hf
      rw [apply_masks_cons, ih _ _ hf.2,
        apply_mask_step_lookup_ne row tm fm f (fun h => hf.1 h.symm)]

/-- C7 (amended): `apply_masks` is idempotent for the mask kinds
redact_full, redact_part, year_only, yyyy_mm, city_only and null/none
(tokenize is excluded as in the claim; hash and initials are *not*
idempotent, see the counterexample). -/
theorem apply_masks_idempotent (row : Row)
    (masks : List (String × String)) (tm : TokenMap)
    (hkinds : ∀ fm ∈ masks, Prod.snd fm ∈ idempotent_mask_kinds)
    (hkeys : (masks.map Prod.fst).Nodup) :
    apply_masks (apply_masks row masks tm).1 masks
      (apply_masks row masks tm).2 = apply_masks row masks tm := by
  induction masks generalizing row tm with
  | nil => rfl
  | cons fm rest ih =>
      rcases fm with ⟨f, m⟩
      have hm : m ∈ idempotent_mask_kinds :=
        hkinds (f, m) (List.mem_cons_self _ _)
      have hkinds' : ∀ fm ∈ rest, Prod.snd fm ∈ idempotent_mask_kinds :=
        fun fm hfm => hkinds fm (List.mem_cons_of_mem _ hfm)
      simp only [List.map_cons, List.nodup_cons] at hkeys
      have hstep := apply_mask_step_idem_kind row tm f m hm
      have hA : apply_masks row ((f, m) :: rest) tm =
          apply_masks (row_set row f
            (idem_mask_value m (row_get row f))) rest tm := by
        rw [apply_masks_cons, hstep]
      have htm : (apply_masks (row_set row f
          (idem_mask_value m (row_get row f))) rest tm).2 = tm :=
        apply_masks_tm_const rest _ tm hkinds'
      have hlook : List.lookup f (apply_masks (row_set row f
          (idem_mask_value m (row_get row f))) rest tm).1 =
          some (idem_mask_value m (row_get row f)) := by
        rw [apply_masks_lookup_not_mem rest _ tm f hkeys.1]
        exact lookup_upsert_self row f _
      have hget : row_get (apply_masks (row_set row f
          (idem_mask_value m (row_get row f))) rest tm).1 f =
          idem_mask_value m (row_get row f) := by
        show (List.lookup f (apply_masks (row_set row f
          (idem_mask_value m (row_get row f))) rest tm).1).getD
            PyVal.none = _
        rw [hlook]
        rfl
      have hsetself : row_set (apply_masks (row_set row f
          (idem_mask_value m (row_get row f))) rest tm).1 f
          (idem_mask_value m (row_get row f)) =
          (apply_masks (row_set row f
            (idem_mask_value m (row_get row f))) rest tm).1 :=
        upsert_lookup_self _ f _ hlook
      rw [hA, htm, apply_masks_cons,
        apply_mask_step_idem_kind _ tm f m hm, hget,
        idem_mask_value_idem m hm, hsetself]
      have hIH := ih (row_set row f
        (idem_mask_value m (row_get row f))) tm hkinds' hkeys.2
      rw [htm] at hIH
      exact hIH

/-- C7 witness: masking a concrete SSN row with redact_part twice equals
masking it once. -/
theorem apply_masks_idempotent_witness :
    apply_masks
        (apply_masks [("ssn", PyVal.str ("123-45-6789").toList)]
          [("ssn", "redact_part")] []).1
        [("ssn", "redact_part")]
        (apply_masks [("ssn", PyVal.str ("123-45-6789").toList)]
          [("ssn", "redact_part")] []).2 =
      apply_masks [("ssn", PyVal.str ("123-45-6789").toList)]
        [("ssn", "redact_part")] [] :=
  apply_masks_idempotent [("ssn", PyVal.str ("123-45-6789").toList)]
    [("ssn", "redact_part")] [] (by decide) (by decide)

set_option maxRecDepth 40000 in
/-- C7 counterexample: `initials` and `hash` are not idempotent.
Masking `{"name": "John Smith"}` with `initials` once gives `"JS"`,
twice gives `"J"`; masking `{"x": "a"}` with `hash` once gives the
16-hex SHA-256 digest of `"a"`, twice re-hashes the digest string. -/
theorem claim_c7_counterexample :
    ((apply_masks
        (apply_masks [("name", PyVal.str ("John Smith").toList)]
          [("name", "initials")] []).1
        [("name", "initials")]
        (apply_masks [("name", PyVal.str ("John Smith").toList)]
          [("name", "initials")] []).2).1 ≠
      (apply_masks [("name", PyVal.str ("John Smith").toList)]
        [("name", "initials")] []).1) ∧
    ((apply_masks [("name", PyVal.str ("John Smith").toList)]
        [("name", "initials")] []).1 =
      [("name", PyVal.str ("JS").toList)]) ∧
    ((apply_masks
        (apply_masks [("x", PyVal.str ("a").toList)]
          [("x", "hash")] []).1
        [("x", "hash")]
        (apply_masks [("x", PyVal.str ("a").toList)]
          [("x", "hash")] []).2).1 ≠
      (apply_masks [("x", PyVal.str ("a").toList)]
        [("x", "hash")] []).1) ∧
    ((apply_masks [("x", PyVal.str ("a").toList)] [("x", "hash")] []).1 =
      [("x", PyVal.str ("ca978112ca1bbdca").toList)]) := by
  refine ⟨by decide, by decide, by decide, by decide⟩

/-- A mask kind outside the nine supported ones leaves the row
untouched at its field. -/
theorem apply_mask_step_unsupported (out : Row) (tm : TokenMap)
    (f m : String) (hm : m ∉ supported_mask_kinds) :
    apply_mask_step (out, tm) (f, m) = (out, tm) := by
  simp only [supported_mask_kinds, List.mem_cons, not_or,
    List.not_mem_nil, not_false_iff, and_true] at hm
  obtain ⟨h1, h2, h3, h4, h5, h6, h7, h8, h9, h10⟩ := hm
  dsimp only [apply_mask_step]
  rw [if_neg h1, if_neg h2, if_neg h3, if_neg h4, if_neg h5, if_neg h6,
    if_neg h7, if_neg h8, if_neg (by simp [h9, h10])]

/-- C10: `apply_masks` builds its output from a copy of the row; a field
that is not named in the mask plan, or is named only with unsupported
mask kinds, keeps its original value (the input row itself is never
mutated, which the functional embedding renders as `apply_masks`
returning a fresh list). -/
theorem apply_masks_frame (row : Row) (masks : List (String × String))
    (tm : TokenMap) (f : String)
    (hf : ∀ m, (f, m) ∈ masks → m ∉ supported_mask_kinds) :
    List.lookup f (apply_masks row masks tm).1 = List.lookup f row := by
  induction masks generalizing row tm with
  | nil => rfl
  | cons fm rest ih =>
      rcases fm with ⟨f', m'⟩
      have hrest : ∀ m, (f, m) ∈ rest → m ∉ supported_mask_kinds :=
        fun m hm => hf m (List.mem_cons_of_mem _ hm)
      by_cases hEq : f' = f
      · subst hEq
        have hm' : m' ∉ supported_mask_kinds :=
          hf m' (List.mem_cons_self _ _)
        rw [apply_masks_cons, apply_mask_step_unsupported row tm f' m' hm']
        exact ih row tm hrest
      · rw [apply_masks_cons, ih _ _ hrest,
          apply_mask_step_lookup_ne row tm (f', m') f hEq]

/-- C10 witness: a field masked only with an unrecognized kind keeps its
value. -/
theorem apply_masks_frame_witness :
    List.lookup "a" (apply_masks
        [("a", PyVal.str ("keep").toList)] [("a", "bogus")] []).1 =
      List.lookup "a" [("a", PyVal.str ("keep").toList)] :=
  apply_masks_frame [("a", PyVal.str ("keep").toList)]
    [("a", "bogus")] [] "a" (by
      intro m hm
      simp only [List.mem_singleton, Prod.mk.injEq] at hm
      rw [hm.2]
      decide)
